import Mathlib

/-!
Verification of the McMapAPI chatbot query-understanding pipeline.

The Python sources (`chatbot_query.py`, `main.py`) are embedded shallowly:

* Python strings are modelled as `List Char` (`Str`), so that every string
  operation used by the code (lower-casing, `str.title()`, `str.split()`,
  `str.strip()`, `re.sub(r"\b\d{5}\b", "")`, `",".join`, SQL `LIKE '%x%'`)
  is an executable Lean function with provable equations.  All text handled
  by the service is ASCII, matching Lean's ASCII `Char.toLower/toUpper`.
* The external fuzzy-matching library (`fuzz.partial_ratio`,
  `process.extractOne`) is an opaque collaborator: matchers take the scorer
  as a function parameter, exactly as the spec directs ("treat fuzzy-matching
  routines as external, swappable capability providers").
* The SQLite tables `outlets` and `categories` are modelled as lists of
  records; queries become list computations whose row multiset mirrors the
  SQL semantics (row order of an unordered SQL result is fixed here to the
  nested-loop order).
* The spaCy stop-word list is an external constant and is passed as a
  parameter to the normalizer.
-/

set_option maxRecDepth 10000

namespace McMap

/-- Python strings, modelled character by character. -/
abbrev Str := List Char

deriving instance DecidableEq for Except

/-! ### Character-level groundwork (ASCII case mapping, `\w`, `\d`) -/

/-- A regex word character (`\w`), restricted to ASCII: `[A-Za-z0-9_]`. -/
def isWordC (c : Char) : Bool := c.isAlphanum || c == '_'

/-! ### Python string primitives over `Str` -/

/-- `s.lower()` (ASCII). -/
def lowerS (s : Str) : Str := s.map Char.toLower

/-- `s.strip()`: drop leading and trailing whitespace. -/
def pyStrip (s : Str) : Str :=
  ((s.dropWhile Char.isWhitespace).reverse.dropWhile Char.isWhitespace).reverse

/-- Fuel-indexed body of `s.split()`; `fuel ≥ s.length` always suffices. -/
def splitWsF (fuel : Nat) (s : Str) : List Str :=
  match fuel with
  | 0 => []
  | fuel + 1 =>
    match s.dropWhile Char.isWhitespace with
    | [] => []
    | c :: r =>
      (c :: r.takeWhile (fun x => !x.isWhitespace)) ::
        splitWsF fuel (r.dropWhile (fun x => !x.isWhitespace))

/-- `s.split()` with no argument: split on runs of whitespace, dropping empty pieces. -/
def splitWs (s : Str) : List Str := splitWsF s.length s

/-- Fuel-indexed body of `s.split(",")`; `fuel ≥ s.length` always suffices. -/
def splitCommaF (fuel : Nat) (s : Str) : List Str :=
  match fuel with
  | 0 => [s.takeWhile (fun c => !(c == ','))]
  | fuel + 1 =>
    match s.dropWhile (fun c => !(c == ',')) with
    | [] => [s.takeWhile (fun c => !(c == ','))]
    | _ :: rest => s.takeWhile (fun c => !(c == ',')) :: splitCommaF fuel rest

/-- `s.split(",")`: split at every comma, keeping empty pieces (always at least one piece). -/
def splitComma (s : Str) : List Str := splitCommaF s.length s

/-- `sep.join(ws)`. -/
def joinSep (sep : Str) : List Str → Str
  | [] => []
  | [w] => w
  | w :: v :: ws => w ++ sep ++ joinSep sep (v :: ws)

/-- One character of `s.title()`: an alphabetic character is upper-cased at a word start
(previous character not alphabetic) and lower-cased otherwise; other characters pass through. -/
def titleC (prevAlpha : Bool) (c : Char) : Char :=
  if c.isAlpha then (if prevAlpha then c.toLower else c.toUpper) else c

def pyTitleGo (prevAlpha : Bool) : Str → Str
  | [] => []
  | c :: r => titleC prevAlpha c :: pyTitleGo c.isAlpha r

/-- `s.title()` (ASCII). -/
def pyTitle (s : Str) : Str := pyTitleGo false s

/-- Insert `x` into the accumulator unless already present: one `set.add` step of a
Python set modelled as its insertion-ordered list of elements. -/
def addUnique [DecidableEq α] (acc : List α) (x : α) : List α :=
  if x ∈ acc then acc else acc ++ [x]

/-- A Python `set` built from a list (also `SELECT DISTINCT` row dedup): keep first occurrences. -/
def setList [DecidableEq α] (l : List α) : List α := l.foldl addUnique []

/-! ### `chatbot_query.py` -/

/-- `OUTLET_CATEGORIES`: the fixed Category Vocabulary from `chatbot_query.py`. -/
def OUTLET_CATEGORIES : List (Str × List Str) :=
  [("24 Hours", ["24 hours", "open all day", "always open"]),
   ("Birthday Party", ["birthday party", "kids party", "celebration"]),
   ("Breakfast", ["breakfast", "morning menu", "breakfast hours"]),
   ("Cashless Facility", ["cashless", "no cash", "digital payment"]),
   ("Dessert Center", ["dessert", "sweets", "ice cream"]),
   ("Drive-Thru", ["drive-thru", "drive through", "car pickup"]),
   ("McCafe", ["mccafe", "cafe", "coffee"]),
   ("McDelivery", ["mcdelivery", "home delivery", "food delivery"]),
   ("Surau", ["surau", "prayer room", "mosque, masjid"]),
   ("WiFi", ["wifi", "internet", "free wifi"]),
   ("Digital Order Kiosk", ["digital kiosk", "self-service kiosk", "order kiosk"]),
   ("Electric Vehicle", ["electric vehicle", "ev charging", "charging station"])
  ].map (fun p => (p.1.toList, p.2.map String.toList))

/-- `STREET_PREFIXES`: the fixed Street Prefix List from `chatbot_query.py`. -/
def STREET_PREFIXES : List Str :=
  ["jalan", "jl", "st", "street", "persiaran", "lorong", "lebuhraya", "avenue", "ave"
  ].map String.toList

/-- Is the head of the remainder a regex word boundary (`\b`) on the right of a match:
end of string or a non-word character. -/
def afterBnd : Str → Bool
  | [] => true
  | c :: _ => !isWordC c

/-- Is the position after `prev` a word boundary for a following word character:
start of string or previous character not a word character. -/
def bndB : Option Char → Bool
  | none => true
  | some c => !isWordC c

/-- `re.sub(r"\b\d{5}\b", "", s)`, scanning left to right with `prev` the character
just before the current position in the original string.  A match needs a word
boundary on both sides; on a match the five digits are dropped and scanning resumes
after them.  Lists shorter than five characters admit no match and are copied. -/
def removePostalGo (prev : Option Char) : Str → Str
  | c1 :: c2 :: c3 :: c4 :: c5 :: rest =>
    if bndB prev && c1.isDigit && c2.isDigit && c3.isDigit && c4.isDigit && c5.isDigit
        && afterBnd rest then
      removePostalGo (some c5) rest
    else
      c1 :: removePostalGo (some c1) (c2 :: c3 :: c4 :: c5 :: rest)
  | l => l

/-- `re.sub(r"\b\d{5}\b", "", address)` from `get_cleaned_locations`. -/
def removePostal (s : Str) : Str := removePostalGo none s

/-- The surviving words of one comma-separated address component: lower-case,
whitespace-split, with exact matches of street-type words removed. -/
def partWords (part : Str) : List Str :=
  (splitWs (lowerS part)).filter (fun w => !STREET_PREFIXES.contains w)

/-- The per-address body of the loop in `get_cleaned_locations`: remove postal-code
tokens, split on commas and strip each part, lower-case and whitespace-split each part,
drop street-type words, rejoin; keep the title-cased result when non-empty. -/
def cleanAddress (address : Str) : List Str :=
  let noPostal := removePostal address
  let parts := (splitComma noPostal).map pyStrip
  parts.filterMap (fun part =>
    let cleaned := pyStrip (joinSep [' '] (partWords part))
    if cleaned.isEmpty then none else some (pyTitle cleaned))

/-- `get_cleaned_locations`, as a function of the distinct stored addresses.  The Python
`set` accumulated over all addresses is modelled as its insertion-ordered element list. -/
def get_cleaned_locations (addresses : List Str) : List Str :=
  setList (addresses.flatMap cleanAddress)

/-- `process.extractOne(q, choices)` of the fuzzy-matching library, over an abstract
scorer: the first choice attaining the maximal score, with its score; `none` iff
`choices` is empty. -/
def extractOne (scorer : Str → Str → Nat) (q : Str) (choices : List Str) :
    Option (Str × Nat) :=
  choices.foldl (fun best c =>
    match best with
    | none => some (c, scorer q c)
    | some (b, sc) => if sc < scorer q c then some (c, scorer q c) else some (b, sc)) none

/-- `extract_location`: fuzzy-match the title-cased query against the location
vocabulary; return the best match when its score exceeds 80.  When the vocabulary is
empty `process.extractOne` returns `None` and the tuple unpacking
`match, score = ...` raises a `TypeError`, modelled as `Except.error ()`. -/
def extract_location (scorer : Str → Str → Nat) (locations : List Str) (query : Str) :
    Except Unit (Option Str) :=
  match extractOne scorer (pyTitle query) locations with
  | none => Except.error ()
  | some (m, sc) => Except.ok (if 80 < sc then some m else none)

/-- `extract_category`: the set of category labels for which some keyword scores
strictly above 80 against the query (`fuzz.partial_ratio` abstracted as `scorer`).
The Python set is modelled as its insertion-ordered element list. -/
def extract_category (scorer : Str → Str → Nat) (query : Str) : List Str :=
  OUTLET_CATEGORIES.foldl
    (fun acc p => if p.2.any (fun kw => 80 < scorer query kw) then addUnique acc p.1 else acc)
    []

/-- `preprocess_query`: lower-case, split on whitespace, drop stop words, rejoin with
single spaces, strip.  The spaCy stop-word set is the `stopWords` parameter. -/
def preprocess_query (stopWords : List Str) (query : Str) : Str :=
  pyStrip (joinSep [' '] ((splitWs (lowerS query)).filter (fun w => !stopWords.contains w)))

/-! ### `main.py` -/

/-- A row of the `outlets` table (the columns the chatbot path reads). -/
structure Outlet where
  id : Nat
  name : Str
  address : Str
deriving DecidableEq

/-- A row of the `categories` table. -/
structure CategoryRow where
  outlet_id : Nat
  category : Str
deriving DecidableEq

/-- The SQLite database contents. -/
structure DB where
  outlets : List Outlet
  cats : List CategoryRow

/-- Substring containment on character lists. -/
def containsSub (needle : Str) : Str → Bool
  | [] => needle.isEmpty
  | c :: t => needle.isPrefixOf (c :: t) || containsSub needle t

/-- `LOWER(address) LIKE LOWER('%loc%')`: case-insensitive substring containment
(the interpolated location carries no SQL wildcard characters). -/
def likeContains (address loc : Str) : Bool := containsSub (lowerS loc) (lowerS address)

/-- `get_outlet_by_category_and_location`: split the comma-joined category string,
then `SELECT o.* FROM outlets o JOIN categories c ON o.id = c.outlet_id WHERE
LOWER(o.address) LIKE LOWER('%loc%') AND LOWER(c.category) IN (...)`.  The `if
category_list:` guard in the source is always true (`split` never returns an empty
list).  No `DISTINCT`: one result row per matching `categories` row, in nested-loop
order. -/
def get_outlet_by_category_and_location (db : DB) (categories : Str) (location : Str) :
    List Outlet :=
  let category_list := splitComma categories
  (db.outlets.filter (fun o => likeContains o.address location)).flatMap
    (fun o =>
      (db.cats.filter (fun r =>
        r.outlet_id == o.id && (category_list.map lowerS).contains (lowerS r.category))).map
      (fun _ => o))

/-- `get_outlets_by_category`: empty input short-circuits to `[]`; otherwise
`SELECT DISTINCT o.* ... WHERE LOWER(c.category) IN (...)`, with `DISTINCT`
modelled as first-occurrence dedup of the joined rows. -/
def get_outlets_by_category (db : DB) (categories : List Str) : List Outlet :=
  if categories.isEmpty then []
  else
    setList (db.outlets.flatMap
      (fun o =>
        (db.cats.filter (fun r =>
          r.outlet_id == o.id && (categories.map lowerS).contains (lowerS r.category))).map
        (fun _ => o)))

/-- `get_outlets_by_location`: `SELECT * FROM outlets WHERE LOWER(address) LIKE ?`.
(The endpoint wraps an empty result as a message dict; the formatter extracts the
outlet list with default `[]`, so the list is the behaviourally relevant value.) -/
def get_outlets_by_location (db : DB) (location : Str) : List Outlet :=
  db.outlets.filter (fun o => likeContains o.address location)

/-- An apostrophe, kept out of string literals. -/
def APOS : Char := Char.ofNat 39

/-- The fixed help message returned when neither a category nor a location matches. -/
def HELP_MESSAGE : Str :=
  "Sorry, I can".toList ++ [APOS] ++
  "t find results for your request. If you think you made a mistake, please try again.\nPlease try something like:\n- ".toList
  ++ [APOS] ++ "Which outlets are 24 hours?".toList ++ [APOS] ++ "\n- ".toList ++ [APOS] ++
  "Which outlets are in Bukit Bintang?".toList ++ [APOS] ++ "\n- ".toList ++ [APOS] ++
  "Which 24-hour outlets are in Bukit Bintang?".toList ++ [APOS]

def NO_OUTLETS_MESSAGE : Str := "No outlets found for your request.".toList

def MESSAGE_HEADER : Str := "Here are the outlets I found:\n\n".toList

def MESSAGE_TRAILER : Str := "If you need more information, please let me know!".toList

/-- One rendered outlet block: `f"{name}\n{address}\n\n"` with both fields stripped. -/
def outletBlock (o : Outlet) : Str :=
  pyStrip o.name ++ '\n' :: (pyStrip o.address ++ ['\n', '\n'])

/-- `process_outlets_to_message`, on the outlet list carried by the response dict
(`outlets.get("outlets", [])`); the returned dict `{"message": m}` is modelled as `m`. -/
def process_outlets_to_message (outlets : List Outlet) : Str :=
  if outlets.isEmpty then NO_OUTLETS_MESSAGE
  else (outlets.foldl (fun m o => m ++ outletBlock o) MESSAGE_HEADER) ++ MESSAGE_TRAILER

/-- The value of the local `query` after `query = query.lower()` and
`query = preprocess_query(query)` in `chatbot_query`: the string both matchers
subsequently receive. -/
def normalized_query (stopWords : List Str) (query : Str) : Str :=
  preprocess_query stopWords (lowerS query)

/-- `chatbot_query` of `main.py`.  The stop-word list, the two fuzzy scorers, the
location vocabulary and the three storage lookups are the collaborators the entry
point closes over; the branch order mirrors the `if categories and location /
elif categories / elif location / else` chain. -/
def chatbot_query (stopWords : List Str) (scoreCat scoreLoc : Str → Str → Nat)
    (locations : List Str)
    (lookupBoth : Str → Str → List Outlet) (lookupCat : List Str → List Outlet)
    (lookupLoc : Str → List Outlet) (query : Str) : Except Unit Str :=
  let q := normalized_query stopWords query
  let categories := extract_category scoreCat q
  match extract_location scoreLoc locations q with
  | Except.error e => Except.error e
  | Except.ok location =>
    match categories, location with
    | c :: cs, some loc =>
      Except.ok (process_outlets_to_message (lookupBoth (joinSep [','] (c :: cs)) loc))
    | c :: cs, none => Except.ok (process_outlets_to_message (lookupCat (c :: cs)))
    | [], some loc => Except.ok (process_outlets_to_message (lookupLoc loc))
    | [], none => Except.ok HELP_MESSAGE

/-! ### Spec-side definitions and concrete instances used by witnesses -/

/-- Modelled from the spec: branch 1 of §4.5 as written there — "look up outlets
matching ALL given categories AND whose address contains the location substring
(case-insensitive)".  Used only to compare the spec's claim against the code. -/
def spec_lookup_all_categories (db : DB) (categories : List Str) (location : Str) :
    List Outlet :=
  db.outlets.filter (fun o =>
    likeContains o.address location &&
    categories.all (fun cat =>
      db.cats.any (fun r => r.outlet_id == o.id && lowerS r.category == lowerS cat)))

/-- Modelled from the spec: a small sample of the external spaCy stop-word list
("articles, prepositions, pronouns, auxiliary verbs"; the glossary lists "the",
"is", "in" as members, and §8 removes "which" and "are" in its worked example). -/
def SPEC_STOP_WORDS : List Str :=
  ["the", "is", "in", "a", "an", "of", "to", "are", "which", "and"].map String.toList

/-- A degenerate fuzzy scorer: every comparison scores 0 (no match clears 80). -/
def zeroScorer : Str → Str → Nat := fun _ _ => 0

/-- A degenerate fuzzy scorer: every comparison scores 100. -/
def fullScorer : Str → Str → Nat := fun _ _ => 100

/-- A scorer that scores 100 exactly when the compared query string is the
title-cased raw query "wifi in bukit bintang" (and 0 otherwise), used to observe
which string reaches the fuzzy matcher. -/
def rawTitleScorer : Str → Str → Nat :=
  fun a _ => if a = pyTitle "wifi in bukit bintang".toList then 100 else 0

/-- A scorer that clears the threshold exactly on the keyword "wifi". -/
def wifiScorer : Str → Str → Nat := fun _ kw => if kw = "wifi".toList then 100 else 0

/-- A concrete outlet on Jalan Bukit Bintang. -/
def cexOutletA : Outlet := ⟨1, "Outlet A".toList, "Jalan Bukit Bintang 12".toList⟩

/-- A concrete database in which `cexOutletA` carries only the WiFi category. -/
def cexDB : DB := ⟨[cexOutletA], [⟨1, "WiFi".toList⟩]⟩

/-- A concrete database in which `cexOutletA` carries both WiFi and 24 Hours. -/
def cexDB2 : DB := ⟨[cexOutletA], [⟨1, "WiFi".toList⟩, ⟨1, "24 Hours".toList⟩]⟩

/-- A storage lookup stub returning no rows. -/
def emptyLookupBoth : Str → Str → List Outlet := fun _ _ => []

/-- A storage lookup stub returning no rows. -/
def emptyLookupCat : List Str → List Outlet := fun _ => []

/-- A storage lookup stub returning no rows. -/
def emptyLookupLoc : Str → List Outlet := fun _ => []

/-- `TokAt left s i`: the regex `\b\d{5}\b` (a standalone five-digit token) matches `s`
at position `i`.  `left` records whether the position before index 0 counts as a word
boundary (true at the start of a whole string). -/
def TokAt (left : Bool) (s : Str) (i : Nat) : Prop :=
  i + 5 ≤ s.length ∧
  (∀ j < 5, (s.getD (i + j) ' ').isDigit = true) ∧
  (i = 0 → left = true) ∧
  (i ≠ 0 → isWordC (s.getD (i - 1) ' ') = false) ∧
  (i + 5 = s.length ∨ isWordC (s.getD (i + 5) ' ') = false)

/-- `s` contains no standalone five-digit token (no `\b\d{5}\b` match). -/
def NoTok (left : Bool) (s : Str) : Prop := ∀ i < s.length, ¬ TokAt left s i

/-- The string `a`, placed immediately to the left of a substring, ends at a word
boundary: it is empty or its last character is not a word character. -/
def LeftFlank (a : Str) : Prop := a = [] ∨ isWordC (a.getD (a.length - 1) ' ') = false

/-- The string `b`, placed immediately to the right of a substring, starts at a word
boundary: it is empty or its first character is not a word character. -/
def RightFlank (b : Str) : Prop := b = [] ∨ isWordC (b.getD 0 ' ') = false

/-- Five consecutive digit characters occur somewhere in `s`
(the claim's "contains a 5-digit substring"). -/
def has5DigitRun : Str → Bool
  | [] => false
  | c :: r => (decide (5 ≤ (c :: r).length) && ((c :: r).take 5).all Char.isDigit) || has5DigitRun r

/-! ### Groundwork lemmas -/

theorem char_eq_of_toNat_eq {c d : Char} (h : c.toNat = d.toNat) : c = d :=
  Char.ext (UInt32.ext h)

theorem char_eq_iff_toNat_eq {c d : Char} : c = d ↔ c.toNat = d.toNat :=
  ⟨fun h => h ▸ rfl, char_eq_of_toNat_eq⟩

theorem toNat_ofNat_valid {n : Nat} (h : n < 55296) : (Char.ofNat n).toNat = n := by
  rw [Char.ofNat, dif_pos (Or.inl h)]
  rfl

theorem toNat_toLower (c : Char) :
    (c.toLower).toNat = if 65 ≤ c.toNat ∧ c.toNat ≤ 90 then c.toNat + 32 else c.toNat := by
  unfold Char.toLower
  split <;> rename_i h
  · rw [if_pos (by omega)]
    exact toNat_ofNat_valid (by omega)
  · rw [if_neg (by omega)]

theorem toNat_toUpper (c : Char) :
    (c.toUpper).toNat = if 97 ≤ c.toNat ∧ c.toNat ≤ 122 then c.toNat - 32 else c.toNat := by
  unfold Char.toUpper
  split <;> rename_i h
  · rw [if_pos (by omega)]
    exact toNat_ofNat_valid (by omega)
  · rw [if_neg (by omega)]

theorem isDigit_iff (c : Char) : c.isDigit = true ↔ 48 ≤ c.toNat ∧ c.toNat ≤ 57 := by
  simp only [Char.isDigit, Bool.and_eq_true, decide_eq_true_eq, ge_iff_le,
    UInt32.le_def, BitVec.le_def]
  constructor <;> intro h <;> exact h

theorem isUpper_iff (c : Char) : c.isUpper = true ↔ 65 ≤ c.toNat ∧ c.toNat ≤ 90 := by
  simp only [Char.isUpper, Bool.and_eq_true, decide_eq_true_eq, ge_iff_le,
    UInt32.le_def, BitVec.le_def]
  constructor <;> intro h <;> exact h

theorem isLower_iff (c : Char) : c.isLower = true ↔ 97 ≤ c.toNat ∧ c.toNat ≤ 122 := by
  simp only [Char.isLower, Bool.and_eq_true, decide_eq_true_eq, ge_iff_le,
    UInt32.le_def, BitVec.le_def]
  constructor <;> intro h <;> exact h

theorem isAlpha_iff (c : Char) :
    c.isAlpha = true ↔ (65 ≤ c.toNat ∧ c.toNat ≤ 90) ∨ (97 ≤ c.toNat ∧ c.toNat ≤ 122) := by
  simp only [Char.isAlpha, Bool.or_eq_true, isUpper_iff, isLower_iff]

theorem isWs_iff (c : Char) :
    c.isWhitespace = true ↔ c.toNat = 32 ∨ c.toNat = 9 ∨ c.toNat = 13 ∨ c.toNat = 10 := by
  have h1 : ' '.toNat = 32 := by decide
  have h2 : '\t'.toNat = 9 := by decide
  have h3 : '\r'.toNat = 13 := by decide
  have h4 : '\n'.toNat = 10 := by decide
  simp only [Char.isWhitespace, Bool.or_eq_true, decide_eq_true_eq, char_eq_iff_toNat_eq,
    h1, h2, h3, h4]
  tauto

theorem isWordC_iff (c : Char) :
    isWordC c = true ↔
      (48 ≤ c.toNat ∧ c.toNat ≤ 57) ∨ (65 ≤ c.toNat ∧ c.toNat ≤ 90) ∨
      (97 ≤ c.toNat ∧ c.toNat ≤ 122) ∨ c.toNat = 95 := by
  have h95 : '_'.toNat = 95 := by decide
  simp only [isWordC, Char.isAlphanum, Bool.or_eq_true, isAlpha_iff, isDigit_iff,
    beq_iff_eq, char_eq_iff_toNat_eq, h95]
  omega

theorem isDigit_toLower (c : Char) : c.toLower.isDigit = c.isDigit := by
  rw [Bool.eq_iff_iff, isDigit_iff, isDigit_iff, toNat_toLower]
  split <;> omega

theorem isAlpha_toLower (c : Char) : c.toLower.isAlpha = c.isAlpha := by
  rw [Bool.eq_iff_iff, isAlpha_iff, isAlpha_iff, toNat_toLower]
  split <;> omega

theorem isWordC_toLower (c : Char) : isWordC c.toLower = isWordC c := by
  rw [Bool.eq_iff_iff, isWordC_iff, isWordC_iff, toNat_toLower]
  split <;> omega

theorem isWs_toLower (c : Char) : c.toLower.isWhitespace = c.isWhitespace := by
  rw [Bool.eq_iff_iff, isWs_iff, isWs_iff, toNat_toLower]
  split <;> omega

theorem isDigit_toUpper (c : Char) : c.toUpper.isDigit = c.isDigit := by
  rw [Bool.eq_iff_iff, isDigit_iff, isDigit_iff, toNat_toUpper]
  split <;> omega

theorem isAlpha_toUpper (c : Char) : c.toUpper.isAlpha = c.isAlpha := by
  rw [Bool.eq_iff_iff, isAlpha_iff, isAlpha_iff, toNat_toUpper]
  split <;> omega

theorem isWordC_toUpper (c : Char) : isWordC c.toUpper = isWordC c := by
  rw [Bool.eq_iff_iff, isWordC_iff, isWordC_iff, toNat_toUpper]
  split <;> omega

theorem isWs_toUpper (c : Char) : c.toUpper.isWhitespace = c.isWhitespace := by
  rw [Bool.eq_iff_iff, isWs_iff, isWs_iff, toNat_toUpper]
  split <;> omega

theorem toLower_toLower (c : Char) : c.toLower.toLower = c.toLower := by
  apply char_eq_of_toNat_eq
  simp only [toNat_toLower]
  split_ifs <;> omega

theorem toLower_toUpper (c : Char) : c.toUpper.toLower = c.toLower := by
  apply char_eq_of_toNat_eq
  simp only [toNat_toLower, toNat_toUpper]
  split_ifs <;> omega

theorem toUpper_toUpper (c : Char) : c.toUpper.toUpper = c.toUpper := by
  apply char_eq_of_toNat_eq
  simp only [toNat_toUpper]
  split_ifs <;> omega

theorem length_dropWhile_le (p : α → Bool) (l : List α) : (l.dropWhile p).length ≤ l.length := by
  induction l with
  | nil => simp
  | cons a l ih =>
    rw [List.dropWhile_cons]
    split
    · exact Nat.le_trans ih (Nat.le_succ _)
    · simp

theorem length_lt_of_dropWhile_cons {p : α → Bool} {l r : List α} {c : α}
    (h : l.dropWhile p = c :: r) : r.length < l.length := by
  have h1 : (l.dropWhile p).length ≤ l.length := length_dropWhile_le _ _
  rw [h] at h1
  simp only [List.length_cons] at h1
  omega

theorem splitWsF_congr :
    ∀ (n m : Nat) (s : Str), s.length ≤ n → s.length ≤ m → splitWsF n s = splitWsF m s := by
  intro n
  induction n with
  | zero =>
    intro m s hn _
    have : s = [] := List.length_eq_zero.mp (Nat.le_zero.mp hn)
    subst this
    cases m <;> rfl
  | succ k ih =>
    intro m s hn hm
    match m with
    | 0 =>
      have : s = [] := List.length_eq_zero.mp (Nat.le_zero.mp hm)
      subst this
      rfl
    | m + 1 =>
      show splitWsF (k + 1) s = splitWsF (m + 1) s
      cases hd : s.dropWhile Char.isWhitespace with
      | nil => simp only [splitWsF, hd]
      | cons c r =>
        have hr : r.length < s.length := length_lt_of_dropWhile_cons hd
        have hrd : (r.dropWhile (fun x => !x.isWhitespace)).length ≤ r.length :=
          length_dropWhile_le _ _
        simp only [splitWsF, hd]
        rw [ih m _ (by omega) (by omega)]

/-- The recursion equation for `splitWs`. -/
theorem splitWs_eq (s : Str) :
    splitWs s =
      match s.dropWhile Char.isWhitespace with
      | [] => []
      | c :: r =>
        (c :: r.takeWhile (fun x => !x.isWhitespace)) ::
          splitWs (r.dropWhile (fun x => !x.isWhitespace)) := by
  cases s with
  | nil => rfl
  | cons a t =>
    show splitWsF (t.length + 1) (a :: t) = _
    cases hd : (a :: t).dropWhile Char.isWhitespace with
    | nil => simp only [splitWsF, hd]
    | cons c r =>
      have hr : r.length < (a :: t).length := length_lt_of_dropWhile_cons hd
      have hrd : (r.dropWhile (fun x => !x.isWhitespace)).length ≤ r.length :=
        length_dropWhile_le _ _
      simp only [List.length_cons] at hr
      simp only [splitWsF, hd, splitWs]
      rw [splitWsF_congr t.length (r.dropWhile (fun x => !x.isWhitespace)).length _
        (by omega) (by omega)]

theorem splitCommaF_congr :
    ∀ (n m : Nat) (s : Str), s.length ≤ n → s.length ≤ m → splitCommaF n s = splitCommaF m s := by
  intro n
  induction n with
  | zero =>
    intro m s hn _
    have : s = [] := List.length_eq_zero.mp (Nat.le_zero.mp hn)
    subst this
    cases m <;> rfl
  | succ k ih =>
    intro m s hn hm
    match m with
    | 0 =>
      have : s = [] := List.length_eq_zero.mp (Nat.le_zero.mp hm)
      subst this
      rfl
    | m + 1 =>
      show splitCommaF (k + 1) s = splitCommaF (m + 1) s
      cases hd : s.dropWhile (fun c => !(c == ',')) with
      | nil => simp only [splitCommaF, hd]
      | cons c rest =>
        have hr : rest.length < s.length := length_lt_of_dropWhile_cons hd
        simp only [splitCommaF, hd]
        rw [ih m rest (by omega) (by omega)]

/-- The recursion equation for `splitComma`. -/
theorem splitComma_eq (s : Str) :
    splitComma s =
      match s.dropWhile (fun c => !(c == ',')) with
      | [] => [s.takeWhile (fun c => !(c == ','))]
      | _ :: rest => s.takeWhile (fun c => !(c == ',')) :: splitComma rest := by
  cases s with
  | nil => rfl
  | cons a t =>
    show splitCommaF (t.length + 1) (a :: t) = _
    cases hd : (a :: t).dropWhile (fun c => !(c == ',')) with
    | nil => simp only [splitCommaF, hd]
    | cons c rest =>
      have hr : rest.length < (a :: t).length := length_lt_of_dropWhile_cons hd
      simp only [List.length_cons] at hr
      simp only [splitCommaF, hd, splitComma]
      rw [splitCommaF_congr t.length rest.length rest (by omega) (by omega)]

/-! ### Set-as-list lemmas -/

theorem mem_addUnique [DecidableEq α] {acc : List α} {a c : α} :
    c ∈ addUnique acc a ↔ c ∈ acc ∨ c = a := by
  unfold addUnique
  split <;> rename_i h
  · constructor
    · exact Or.inl
    · intro hc
      cases hc with
      | inl h1 => exact h1
      | inr h1 => exact h1 ▸ h
  · simp

theorem nodup_addUnique [DecidableEq α] {acc : List α} (h : acc.Nodup) (a : α) :
    (addUnique acc a).Nodup := by
  unfold addUnique
  split <;> rename_i ha
  · exact h
  · simp [List.nodup_append, h, ha]

theorem mem_foldl_addUnique [DecidableEq α] :
    ∀ (l acc : List α) (c : α), c ∈ l.foldl addUnique acc ↔ c ∈ acc ∨ c ∈ l := by
  intro l
  induction l with
  | nil => simp
  | cons x xs ih =>
    intro acc c
    rw [List.foldl_cons, ih, mem_addUnique, List.mem_cons]
    tauto

theorem nodup_foldl_addUnique [DecidableEq α] :
    ∀ (l acc : List α), acc.Nodup → (l.foldl addUnique acc).Nodup := by
  intro l
  induction l with
  | nil => exact fun acc h => h
  | cons x xs ih => exact fun acc h => ih _ (nodup_addUnique h x)

theorem mem_setList [DecidableEq α] (l : List α) (c : α) : c ∈ setList l ↔ c ∈ l := by
  rw [setList, mem_foldl_addUnique]
  simp

theorem nodup_setList [DecidableEq α] (l : List α) : (setList l).Nodup :=
  nodup_foldl_addUnique l [] List.nodup_nil

/-! ### Category matcher lemmas -/

theorem mem_extract_category_go (scorer : Str → Str → Nat) (q : Str) :
    ∀ (l : List (Str × List Str)) (acc : List Str) (c : Str),
      c ∈ l.foldl
            (fun acc p => if p.2.any (fun kw => 80 < scorer q kw) then addUnique acc p.1
                          else acc) acc ↔
        c ∈ acc ∨ ∃ p ∈ l, p.1 = c ∧ ∃ kw ∈ p.2, 80 < scorer q kw := by
  intro l
  induction l with
  | nil => simp
  | cons x xs ih =>
    intro acc c
    rw [List.foldl_cons]
    by_cases hx : x.2.any (fun kw => 80 < scorer q kw)
    · rw [if_pos hx, ih, mem_addUnique]
      rw [List.any_eq_true] at hx
      simp only [decide_eq_true_eq] at hx
      constructor
      · rintro ((hc | rfl) | ⟨p, hp, rfl, hkw⟩)
        · exact Or.inl hc
        · exact Or.inr ⟨x, List.mem_cons_self _ _, rfl, hx⟩
        · exact Or.inr ⟨p, List.mem_cons_of_mem _ hp, rfl, hkw⟩
      · rintro (hc | ⟨p, hp, rfl, hkw⟩)
        · exact Or.inl (Or.inl hc)
        · rcases List.mem_cons.mp hp with rfl | hp2
          · exact Or.inl (Or.inr rfl)
          · exact Or.inr ⟨p, hp2, rfl, hkw⟩
    · rw [if_neg hx, ih]
      rw [List.any_eq_true] at hx
      simp only [decide_eq_true_eq] at hx
      constructor
      · rintro (hc | ⟨p, hp, rfl, hkw⟩)
        · exact Or.inl hc
        · exact Or.inr ⟨p, List.mem_cons_of_mem _ hp, rfl, hkw⟩
      · rintro (hc | ⟨p, hp, rfl, hkw⟩)
        · exact Or.inl hc
        · rcases List.mem_cons.mp hp with rfl | hp2
          · exact absurd hkw hx
          · exact Or.inr ⟨p, hp2, rfl, hkw⟩

theorem nodup_extract_category_go (scorer : Str → Str → Nat) (q : Str) :
    ∀ (l : List (Str × List Str)) (acc : List Str), acc.Nodup →
      (l.foldl
        (fun acc p => if p.2.any (fun kw => 80 < scorer q kw) then addUnique acc p.1
                      else acc) acc).Nodup := by
  intro l
  induction l with
  | nil => exact fun acc h => h
  | cons x xs ih =>
    intro acc h
    rw [List.foldl_cons]
    split
    · exact ih _ (nodup_addUnique h _)
    · exact ih _ h

/-! ### Best-of fuzzy matcher lemmas -/

theorem extractOne_go_spec (scorer : Str → Str → Nat) (q : Str) :
    ∀ (l : List Str) (b : Str) (sc : Nat), sc = scorer q b →
      ∃ b2 sc2,
        l.foldl (fun best c =>
          match best with
          | none => some (c, scorer q c)
          | some (b, s) => if s < scorer q c then some (c, scorer q c) else some (b, s))
          (some (b, sc)) = some (b2, sc2) ∧
        sc2 = scorer q b2 ∧ (b2 = b ∨ b2 ∈ l) ∧ sc ≤ sc2 ∧ ∀ x ∈ l, scorer q x ≤ sc2 := by
  intro l
  induction l with
  | nil =>
    intro b sc h
    exact ⟨b, sc, rfl, h, Or.inl rfl, Nat.le_refl _, by simp⟩
  | cons x xs ih =>
    intro b sc h
    rw [List.foldl_cons]
    show ∃ b2 sc2, xs.foldl _ (if sc < scorer q x then some (x, scorer q x) else some (b, sc)) =
      some (b2, sc2) ∧ _
    by_cases hx : sc < scorer q x
    · rw [if_pos hx]
      obtain ⟨b2, sc2, heq, hsc, hb, hle, hall⟩ := ih x (scorer q x) rfl
      refine ⟨b2, sc2, heq, hsc, ?_, by omega, ?_⟩
      · rcases hb with rfl | hmem
        · exact Or.inr (List.mem_cons_self _ _)
        · exact Or.inr (List.mem_cons_of_mem _ hmem)
      · intro y hy
        rcases List.mem_cons.mp hy with rfl | hy2
        · omega
        · exact hall y hy2
    · rw [if_neg hx]
      obtain ⟨b2, sc2, heq, hsc, hb, hle, hall⟩ := ih b sc h
      refine ⟨b2, sc2, heq, hsc, ?_, hle, ?_⟩
      · rcases hb with rfl | hmem
        · exact Or.inl rfl
        · exact Or.inr (List.mem_cons_of_mem _ hmem)
      · intro y hy
        rcases List.mem_cons.mp hy with rfl | hy2
        · omega
        · exact hall y hy2

theorem extractOne_spec (scorer : Str → Str → Nat) (q : Str) (l : List Str) (hl : l ≠ []) :
    ∃ b sc, extractOne scorer q l = some (b, sc) ∧ sc = scorer q b ∧ b ∈ l ∧
      ∀ x ∈ l, scorer q x ≤ sc := by
  cases l with
  | nil => exact absurd rfl hl
  | cons x xs =>
    rw [extractOne, List.foldl_cons]
    obtain ⟨b2, sc2, heq, hsc, hb, hle, hall⟩ := extractOne_go_spec scorer q xs x (scorer q x) rfl
    refine ⟨b2, sc2, heq, hsc, ?_, ?_⟩
    · rcases hb with rfl | hmem
      · exact List.mem_cons_self _ _
      · exact List.mem_cons_of_mem _ hmem
    · intro y hy
      rcases List.mem_cons.mp hy with rfl | hy2
      · exact hle
      · exact hall y hy2

/-! ### Formatter lemmas -/

theorem foldl_append_eq {α : Type} (f : α → Str) :
    ∀ (l : List α) (a : Str), l.foldl (fun m o => m ++ f o) a = a ++ (l.map f).flatten := by
  intro l
  induction l with
  | nil => simp
  | cons x xs ih =>
    intro a
    rw [List.foldl_cons, ih]
    simp [List.append_assoc]


/-! ### Database lookup lemmas -/

theorem count_flatMap {α β : Type} [BEq α] (a : α) (l : List β) (f : β → List α) :
    (l.flatMap f).count a = (l.map (fun x => (f x).count a)).sum := by
  induction l with
  | nil => rfl
  | cons x xs ih => simp [List.flatMap_cons, ih]

theorem count_map_const {α β : Type} [DecidableEq α] (a x : α) (l : List β) :
    (l.map (fun _ => x)).count a = if x = a then l.length else 0 := by
  induction l with
  | nil => simp
  | cons y ys ih =>
    rw [List.map_cons, List.count_cons, ih]
    by_cases h : x = a <;> simp [h]

theorem sum_map_ite_count {α : Type} [DecidableEq α] (o : α) (g : α → Nat) :
    ∀ l : List α, (l.map (fun x => if x = o then g x else 0)).sum = l.count o * g o := by
  intro l
  induction l with
  | nil => simp
  | cons x xs ih =>
    rw [List.map_cons, List.sum_cons, ih, List.count_cons]
    by_cases h : x = o
    · subst h
      simp [Nat.add_mul]
      omega
    · simp [h, Ne.symm h]

theorem count_filter_eq {α : Type} [DecidableEq α] (p : α → Bool) (a : α) (l : List α) :
    (l.filter p).count a = if p a then l.count a else 0 := by
  split <;> rename_i h
  · exact List.count_filter h
  · rw [List.count_eq_zero]
    intro hmem
    exact absurd (List.of_mem_filter hmem) (by simpa using h)

theorem mem_lookup_both (db : DB) (cats : Str) (loc : Str) (o : Outlet) :
    o ∈ get_outlet_by_category_and_location db cats loc ↔
      o ∈ db.outlets ∧ likeContains o.address loc = true ∧
      ∃ r ∈ db.cats, r.outlet_id = o.id ∧
        lowerS r.category ∈ (splitComma cats).map lowerS := by
  unfold get_outlet_by_category_and_location
  rw [List.mem_flatMap]
  constructor
  · rintro ⟨a, ha, ho⟩
    rw [List.mem_filter] at ha
    rw [List.mem_map] at ho
    obtain ⟨r, hr, rfl⟩ := ho
    rw [List.mem_filter] at hr
    obtain ⟨hrmem, hrcond⟩ := hr
    rw [Bool.and_eq_true, beq_iff_eq] at hrcond
    refine ⟨ha.1, ha.2, r, hrmem, hrcond.1, ?_⟩
    have := hrcond.2
    simpa [List.contains, List.elem_eq_mem] using this
  · rintro ⟨hmem, hlike, r, hrmem, hrid, hrcat⟩
    refine ⟨o, List.mem_filter.mpr ⟨hmem, hlike⟩, List.mem_map.mpr ⟨r, ?_, rfl⟩⟩
    rw [List.mem_filter]
    refine ⟨hrmem, ?_⟩
    rw [Bool.and_eq_true, beq_iff_eq]
    exact ⟨hrid, by simpa [List.contains, List.elem_eq_mem] using hrcat⟩

theorem count_lookup_both (db : DB) (cats : Str) (loc : Str) (o : Outlet) :
    (get_outlet_by_category_and_location db cats loc).count o =
      (if likeContains o.address loc then db.outlets.count o else 0) *
        (db.cats.filter (fun r =>
          r.outlet_id == o.id &&
            ((splitComma cats).map lowerS).contains (lowerS r.category))).length := by
  unfold get_outlet_by_category_and_location
  rw [count_flatMap]
  have hmap : ∀ x : Outlet,
      ((db.cats.filter (fun r =>
        r.outlet_id == x.id &&
          ((splitComma cats).map lowerS).contains (lowerS r.category))).map
        (fun _ => x)).count o =
      if x = o then
        (db.cats.filter (fun r =>
          r.outlet_id == o.id &&
            ((splitComma cats).map lowerS).contains (lowerS r.category))).length
      else 0 := by
    intro x
    rw [count_map_const]
    by_cases h : x = o
    · subst h
      rfl
    · simp [h]
  rw [List.map_congr_left (fun x _ => hmap x), sum_map_ite_count, count_filter_eq]

theorem nodup_lookup_category (db : DB) (cats : List Str) :
    (get_outlets_by_category db cats).Nodup := by
  unfold get_outlets_by_category
  split
  · exact List.nodup_nil
  · exact nodup_setList _

theorem joinSep_comma_roundtrip :
    ∀ (cats : List Str), cats ≠ [] → (∀ c ∈ cats, (',' : Char) ∉ c) →
      splitComma (joinSep [','] cats) = cats := by
  intro cats
  induction cats with
  | nil => intro h; exact absurd rfl h
  | cons w ws ih =>
    intro _ hnc
    have hw : ∀ x ∈ w, (fun c => !(c == ',')) x = true := by
      intro x hx
      have : x ≠ ',' := fun h => hnc w (List.mem_cons_self _ _) (h ▸ hx)
      simpa using this
    cases ws with
    | nil =>
      show splitComma w = [w]
      rw [splitComma_eq]
      have hdrop : w.dropWhile (fun c => !(c == ',')) = [] := by
        rw [List.dropWhile_eq_nil_iff]
        exact hw
      rw [hdrop]
      have htake : w.takeWhile (fun c => !(c == ',')) = w := by
        rw [List.takeWhile_eq_self_iff]
        exact hw
      rw [htake]
    | cons v vs =>
      have hj : joinSep [','] (w :: v :: vs) = w ++ ',' :: joinSep [','] (v :: vs) := by
        show (w ++ [',']) ++ joinSep [','] (v :: vs) = _
        simp
      rw [hj, splitComma_eq]
      rw [List.dropWhile_append_of_pos hw]
      rw [List.dropWhile_cons]
      norm_num
      rw [List.takeWhile_append_of_pos hw]
      rw [List.takeWhile_cons]
      norm_num
      exact ih (List.cons_ne_nil _ _) (fun c hc => hnc c (List.mem_cons_of_mem _ hc))

theorem extract_category_comma_free (scorer : Str → Str → Nat) (q : Str) :
    ∀ c ∈ extract_category scorer q, (',' : Char) ∉ c := by
  intro c hc
  rw [extract_category, mem_extract_category_go] at hc
  simp only [List.not_mem_nil, false_or] at hc
  obtain ⟨p, hp, rfl, -⟩ := hc
  have hlabels : ∀ p ∈ OUTLET_CATEGORIES, (',' : Char) ∉ p.1 := by decide
  exact hlabels p hp

/-! ### Claim theorems -/

/-- Claim C7: on an empty outlet list the Formatter returns exactly the fixed
"no outlets found" message; otherwise it returns the fixed header line, then for each
outlet in lookup order the block `{name}\n{address}\n\n` with both fields trimmed of
surrounding whitespace, then the fixed trailer line inviting further questions. -/
theorem c7_formatter (outlets : List Outlet) :
    (outlets = [] → process_outlets_to_message outlets = NO_OUTLETS_MESSAGE) ∧
    (outlets ≠ [] →
      process_outlets_to_message outlets =
        MESSAGE_HEADER ++ ((outlets.map outletBlock).flatten ++ MESSAGE_TRAILER)) := by
  constructor
  · rintro rfl
    rfl
  · intro h
    rw [process_outlets_to_message, if_neg (by simpa using h), foldl_append_eq]
    rw [List.append_assoc]

/-- Claim C7 witness: the formatter evaluated on the empty list and on a concrete
outlet with padded name and address. -/
theorem c7_formatter_witness :
    process_outlets_to_message [] = NO_OUTLETS_MESSAGE ∧
    process_outlets_to_message [⟨1, " Outlet A ".toList, " Addr 1 ".toList⟩] =
      MESSAGE_HEADER ++
        (([(⟨1, " Outlet A ".toList, " Addr 1 ".toList⟩ : Outlet)].map outletBlock).flatten ++
          MESSAGE_TRAILER) :=
  ⟨(c7_formatter []).1 rfl, (c7_formatter _).2 (List.cons_ne_nil _ _)⟩

/-- Claim C4: for every query, the Category Matcher returns exactly the labels having
some keyword whose (partial-ratio) score against the query strictly exceeds 80; the
result is duplicate-free and possibly empty, and several categories can be returned
for one query. -/
theorem c4_category_matcher :
    (∀ (scorer : Str → Str → Nat) (q : Str) (c : Str),
      c ∈ extract_category scorer q ↔
        ∃ kws, (c, kws) ∈ OUTLET_CATEGORIES ∧ ∃ kw ∈ kws, 80 < scorer q kw) ∧
    (∀ (scorer : Str → Str → Nat) (q : Str), (extract_category scorer q).Nodup) ∧
    2 ≤ (extract_category fullScorer "24 hours and wifi".toList).length := by
  refine ⟨?_, ?_, by decide⟩
  · intro scorer q c
    rw [extract_category, mem_extract_category_go]
    simp only [List.not_mem_nil, false_or]
    constructor
    · rintro ⟨p, hp, rfl, hkw⟩
      exact ⟨p.2, hp, hkw⟩
    · rintro ⟨kws, hmem, hkw⟩
      exact ⟨(c, kws), hmem, rfl, hkw⟩
  · intro scorer q
    exact nodup_extract_category_go scorer q _ _ List.nodup_nil

/-- Claim C9: with an empty Location Vocabulary (no stored addresses, or every address
cleaning to nothing, e.g. a pure street-type + postal-code address), `extract_location`
does not return no-match but fails (unpacking the `None` from `process.extractOne`),
and so the chatbot entry point fails on every query. -/
theorem c9_empty_vocabulary_error :
    (∀ (scorer : Str → Str → Nat) (q : Str), extract_location scorer [] q = Except.error ()) ∧
    (∀ (stopWords : List Str) (scoreCat scoreLoc : Str → Str → Nat)
      (lookupBoth : Str → Str → List Outlet) (lookupCat : List Str → List Outlet)
      (lookupLoc : Str → List Outlet) (q : Str),
      chatbot_query stopWords scoreCat scoreLoc [] lookupBoth lookupCat lookupLoc q =
        Except.error ()) ∧
    get_cleaned_locations [] = [] ∧
    get_cleaned_locations ["Jalan 50480".toList] = [] := by
  refine ⟨fun scorer q => rfl, fun stopWords sc sl lb lc ll q => rfl, rfl, by decide⟩

/-- Claim C8: whenever the Category Matcher returns no category and the Location
Matcher returns no-match, the chatbot entry point returns the fixed help message as a
successful response, touching none of the storage lookups; the empty query normalizes
to the empty string and flows through the same pipeline. -/
theorem c8_help_branch (stopWords : List Str) (scoreCat scoreLoc : Str → Str → Nat)
    (locations : List Str) (lookupBoth : Str → Str → List Outlet)
    (lookupCat : List Str → List Outlet) (lookupLoc : Str → List Outlet) (query : Str)
    (hcat : extract_category scoreCat (normalized_query stopWords query) = [])
    (hloc : extract_location scoreLoc locations (normalized_query stopWords query) =
      Except.ok none) :
    chatbot_query stopWords scoreCat scoreLoc locations lookupBoth lookupCat lookupLoc query =
      Except.ok HELP_MESSAGE ∧
    normalized_query stopWords [] = [] := by
  constructor
  · simp only [chatbot_query, hcat, hloc]
  · rfl

/-- Claim C8 witness: a gibberish-scoring configuration hits the help branch with
every lookup stubbed to fail loudly were it consulted. -/
theorem c8_help_branch_witness :
    chatbot_query SPEC_STOP_WORDS zeroScorer zeroScorer ["Bukit Bintang".toList]
      emptyLookupBoth emptyLookupCat emptyLookupLoc "hello there".toList =
      Except.ok HELP_MESSAGE :=
  (c8_help_branch SPEC_STOP_WORDS zeroScorer zeroScorer ["Bukit Bintang".toList]
    emptyLookupBoth emptyLookupCat emptyLookupLoc "hello there".toList
    (by decide) (by decide)).1

/-- Claim C3 (amended): for every query and NONEMPTY location vocabulary, the Location
Matcher returns the single best-scoring vocabulary string when its best score strictly
exceeds 80 and no-match otherwise; at most one location is ever produced. -/
theorem c3_location_matcher (scorer : Str → Str → Nat) (locations : List Str) (query : Str)
    (hl : locations ≠ []) :
    ∃ best, best ∈ locations ∧
      (∀ l ∈ locations, scorer (pyTitle query) l ≤ scorer (pyTitle query) best) ∧
      extract_location scorer locations query =
        Except.ok (if 80 < scorer (pyTitle query) best then some best else none) := by
  obtain ⟨b, sc, heq, hsc, hb, hall⟩ := extractOne_spec scorer (pyTitle query) locations hl
  subst hsc
  exact ⟨b, hb, hall, by rw [extract_location, heq]⟩

/-- Claim C3 counterexample: on the empty location vocabulary the Location Matcher
fails instead of returning no-match. -/
theorem c3_location_matcher_counterexample :
    extract_location zeroScorer [] [] = Except.error () ∧
    extract_location zeroScorer [] [] ≠ Except.ok none :=
  ⟨rfl, fun h => nomatch h⟩

/-- Claim C3 witness: with a constant-100 scorer the single vocabulary entry is
returned. -/
theorem c3_location_matcher_witness :
    extract_location fullScorer ["Bukit Bintang".toList] [] =
      Except.ok (some "Bukit Bintang".toList) := by
  obtain ⟨best, hmem, _, heq⟩ :=
    c3_location_matcher fullScorer ["Bukit Bintang".toList] [] (by decide)
  rw [List.mem_singleton] at hmem
  subst hmem
  simpa [fullScorer] using heq

/-- Claim C2 (amended): when both a non-empty category set and a location match are
produced, the chatbot dispatches to the category+location lookup with the categories
joined into a single comma-separated string, and that lookup returns exactly the
outlets whose address contains the location substring case-insensitively and that
carry AT LEAST ONE of the given categories (case-insensitively) — one result row per
matching category-table row, not "ALL categories" as the spec states. -/
theorem c2_both_branch (stopWords : List Str) (scoreCat scoreLoc : Str → Str → Nat)
    (locations : List Str) (db : DB) (query : Str) (cats : List Str) (loc : Str)
    (hcat : extract_category scoreCat (normalized_query stopWords query) = cats)
    (hne : cats ≠ [])
    (hloc : extract_location scoreLoc locations (normalized_query stopWords query) =
      Except.ok (some loc)) :
    chatbot_query stopWords scoreCat scoreLoc locations
      (get_outlet_by_category_and_location db) (get_outlets_by_category db)
      (get_outlets_by_location db) query =
      Except.ok (process_outlets_to_message
        (get_outlet_by_category_and_location db (joinSep [','] cats) loc)) ∧
    (∀ o : Outlet, o ∈ get_outlet_by_category_and_location db (joinSep [','] cats) loc ↔
      o ∈ db.outlets ∧ likeContains o.address loc = true ∧
      ∃ r ∈ db.cats, r.outlet_id = o.id ∧ lowerS r.category ∈ cats.map lowerS) := by
  have hsplit : splitComma (joinSep [','] cats) = cats :=
    joinSep_comma_roundtrip cats hne
      (fun c hc => extract_category_comma_free scoreCat _ c (hcat ▸ hc))
  constructor
  · cases cats with
    | nil => exact absurd rfl hne
    | cons c cs => simp only [chatbot_query, hcat, hloc]
  · intro o
    rw [mem_lookup_both, hsplit]

/-- Claim C2 counterexample: an outlet carrying only WiFi is returned by the lookup
for the joined category string "24 Hours,WiFi" (ANY semantics), while the spec's
ALL-categories reading returns nothing. -/
theorem c2_both_branch_counterexample :
    get_outlet_by_category_and_location cexDB "24 Hours,WiFi".toList "bukit bintang".toList =
      [cexOutletA] ∧
    spec_lookup_all_categories cexDB (splitComma "24 Hours,WiFi".toList)
      "bukit bintang".toList = [] := by
  constructor
  · decide
  · decide

/-- Claim C2 witness: a run of the chatbot both-branch on a concrete database,
matching only the WiFi category and the Bukit Bintang location. -/
theorem c2_both_branch_witness :
    chatbot_query [] wifiScorer fullScorer ["Bukit Bintang".toList]
      (get_outlet_by_category_and_location cexDB) (get_outlets_by_category cexDB)
      (get_outlets_by_location cexDB) "free wifi please".toList =
      Except.ok (process_outlets_to_message
        (get_outlet_by_category_and_location cexDB (joinSep [','] ["WiFi".toList])
          "Bukit Bintang".toList)) ∧
    cexOutletA ∈ get_outlet_by_category_and_location cexDB (joinSep [','] ["WiFi".toList])
      "Bukit Bintang".toList := by
  have h := c2_both_branch [] wifiScorer fullScorer ["Bukit Bintang".toList] cexDB
    "free wifi please".toList ["WiFi".toList] "Bukit Bintang".toList
    (by decide) (by decide) (by decide)
  exact ⟨h.1, (h.2 cexOutletA).mpr (by decide)⟩

/-- Claim C10: the both-branch lookup joins `outlets` and `categories` without
DISTINCT, so an outlet whose address matches the location appears once per matching
category row (`count = outlet-row-count × matching-category-row-count`); the
any-category lookup dedups via SELECT DISTINCT and so is duplicate-free.  On a
concrete database whose single outlet carries both requested categories, the
both-branch returns it twice and the formatter renders its block twice, while the
any-category branch returns it once. -/
theorem c10_join_multiplicity :
    (∀ (db : DB) (cats : Str) (loc : Str) (o : Outlet),
      (get_outlet_by_category_and_location db cats loc).count o =
        (if likeContains o.address loc then db.outlets.count o else 0) *
          (db.cats.filter (fun r =>
            r.outlet_id == o.id &&
              ((splitComma cats).map lowerS).contains (lowerS r.category))).length) ∧
    (∀ (db : DB) (cats : List Str), (get_outlets_by_category db cats).Nodup) ∧
    (get_outlet_by_category_and_location cexDB2 "24 hours,wifi".toList
      "bukit".toList).count cexOutletA = 2 ∧
    process_outlets_to_message
      (get_outlet_by_category_and_location cexDB2 "24 hours,wifi".toList "bukit".toList) =
      MESSAGE_HEADER ++ (outletBlock cexOutletA ++ (outletBlock cexOutletA ++
        MESSAGE_TRAILER)) ∧
    (get_outlets_by_category cexDB2 ["24 hours".toList, "wifi".toList]).count cexOutletA
      = 1 := by
  refine ⟨count_lookup_both, nodup_lookup_category, by decide, by decide, by decide⟩

/-! ### `splitWs` structure lemmas -/

theorem splitWs_nil : splitWs [] = [] := rfl

theorem splitWs_cons_ws {c : Char} (h : c.isWhitespace = true) (s : Str) :
    splitWs (c :: s) = splitWs s := by
  rw [splitWs_eq (c :: s), List.dropWhile_cons, if_pos h, ← splitWs_eq]

theorem splitWs_cons_not_ws {a : Char} (ha : a.isWhitespace = false) (t : Str) :
    splitWs (a :: t) =
      (a :: t.takeWhile (fun x => !x.isWhitespace)) ::
        splitWs (t.dropWhile (fun x => !x.isWhitespace)) := by
  rw [splitWs_eq (a :: t), List.dropWhile_cons, if_neg (by simp [ha])]

theorem mem_splitWs_props (s : Str) :
    ∀ w ∈ splitWs s, w ≠ [] ∧ ∀ c ∈ w, c.isWhitespace = false := by
  generalize hn : s.length = n
  induction n using Nat.strong_induction_on generalizing s with
  | _ n ih =>
    intro w hw
    rw [splitWs_eq] at hw
    cases hd : s.dropWhile Char.isWhitespace with
    | nil =>
      rw [hd] at hw
      exact absurd hw (List.not_mem_nil w)
    | cons c r =>
      rw [hd] at hw
      have hc : c.isWhitespace = false := by
        have h0 := List.head?_dropWhile_not Char.isWhitespace s
        rw [hd] at h0
        exact h0
      rcases List.mem_cons.mp hw with rfl | hw2
      · refine ⟨List.cons_ne_nil _ _, ?_⟩
        intro x hx
        rcases List.mem_cons.mp hx with rfl | hx2
        · exact hc
        · have := List.mem_takeWhile_imp hx2
          simpa using this
      · have hr : r.length < s.length := length_lt_of_dropWhile_cons hd
        have hrd : (r.dropWhile (fun x => !x.isWhitespace)).length ≤ r.length :=
          length_dropWhile_le _ _
        exact ih (r.dropWhile (fun x => !x.isWhitespace)).length (by omega) _ rfl w hw2

theorem splitWs_singleton {w : Str} (hne : w ≠ [])
    (hnw : ∀ c ∈ w, c.isWhitespace = false) : splitWs w = [w] := by
  cases w with
  | nil => exact absurd rfl hne
  | cons a t =>
    rw [splitWs_cons_not_ws (hnw a (List.mem_cons_self _ _))]
    have ht : t.takeWhile (fun x => !x.isWhitespace) = t := by
      rw [List.takeWhile_eq_self_iff]
      intro x hx
      simp [hnw x (List.mem_cons_of_mem _ hx)]
    have hd : t.dropWhile (fun x => !x.isWhitespace) = [] := by
      rw [List.dropWhile_eq_nil_iff]
      intro x hx
      simp [hnw x (List.mem_cons_of_mem _ hx)]
    rw [ht, hd, splitWs_nil]

theorem splitWs_joinSep :
    ∀ ws : List Str, (∀ w ∈ ws, w ≠ [] ∧ ∀ c ∈ w, c.isWhitespace = false) →
      splitWs (joinSep [' '] ws) = ws := by
  intro ws
  induction ws with
  | nil => intro _; rfl
  | cons w vs ih =>
    intro h
    obtain ⟨hne, hnw⟩ := h w (List.mem_cons_self _ _)
    cases vs with
    | nil => exact splitWs_singleton hne hnw
    | cons v vs2 =>
      have hj : joinSep [' '] (w :: v :: vs2) = w ++ ' ' :: joinSep [' '] (v :: vs2) := by
        show (w ++ [' ']) ++ joinSep [' '] (v :: vs2) = _
        simp
      rw [hj]
      cases w with
      | nil => exact absurd rfl hne
      | cons a t =>
        have ha : a.isWhitespace = false := hnw a (List.mem_cons_self _ _)
        have htail : ∀ x ∈ t, (fun x => !x.isWhitespace) x = true := by
          intro x hx
          simp [hnw x (List.mem_cons_of_mem _ hx)]
        rw [List.cons_append, splitWs_cons_not_ws ha]
        rw [List.takeWhile_append_of_pos htail, List.dropWhile_append_of_pos htail]
        rw [List.takeWhile_cons, if_neg (by simp)]
        rw [List.dropWhile_cons, if_neg (by simp)]
        rw [List.append_nil, splitWs_cons_ws (by decide)]
        rw [ih (fun x hx => h x (List.mem_cons_of_mem _ hx))]

theorem joinSep_ne_nil {ws : List Str} (h : ws ≠ [])
    (h2 : ∀ w ∈ ws, w ≠ []) : joinSep [' '] ws ≠ [] := by
  cases ws with
  | nil => exact absurd rfl h
  | cons w vs =>
    cases vs with
    | nil => exact h2 w (List.mem_cons_self _ _)
    | cons v vs2 =>
      show (w ++ [' ']) ++ joinSep [' '] (v :: vs2) ≠ []
      simp

theorem joinSep_head? {w : Str} (hne : w ≠ []) (ws : List Str) :
    (joinSep [' '] (w :: ws)).head? = w.head? := by
  cases ws with
  | nil => rfl
  | cons v vs =>
    show ((w ++ [' ']) ++ joinSep [' '] (v :: vs)).head? = w.head?
    rw [List.head?_append, List.head?_append]
    cases hw : w.head? with
    | none => exact absurd (List.head?_eq_none_iff.mp hw) hne
    | some a => rfl

theorem joinSep_getLast? :
    ∀ (ws : List Str) (w : Str), w ≠ [] → (∀ u ∈ ws, u ≠ []) →
      (joinSep [' '] (ws ++ [w])).getLast? = w.getLast? := by
  intro ws
  induction ws with
  | nil => intro w _ _; rfl
  | cons v vs ih =>
    intro w hw hvs
    have hj : joinSep [' '] ((v :: vs) ++ [w]) = v ++ ' ' :: joinSep [' '] (vs ++ [w]) := by
      cases vs <;>
        · show (v ++ [' ']) ++ _ = _
          simp
    rw [hj, List.getLast?_append]
    have hJ : joinSep [' '] (vs ++ [w]) ≠ [] := by
      apply joinSep_ne_nil
      · simp
      · intro u hu
        rcases List.mem_append.mp hu with h1 | h2
        · exact hvs u (List.mem_cons_of_mem _ h1)
        · rw [List.mem_singleton] at h2
          exact h2 ▸ hw
    cases hk : joinSep [' '] (vs ++ [w]) with
    | nil => exact absurd hk hJ
    | cons x xs =>
      rw [List.getLast?_cons_cons]
      have hxs : (x :: xs).getLast? = w.getLast? := by
        rw [← hk]
        exact ih w hw (fun u hu => hvs u (List.mem_cons_of_mem _ hu))
      rw [hxs]
      cases hwl : w.getLast? with
      | none => exact absurd (List.getLast?_eq_none_iff.mp hwl) hw
      | some y => rfl

theorem pyStrip_eq_self {s : Str}
    (h1 : ∀ c, s.head? = some c → c.isWhitespace = false)
    (h2 : ∀ c, s.getLast? = some c → c.isWhitespace = false) : pyStrip s = s := by
  unfold pyStrip
  have hd : s.dropWhile Char.isWhitespace = s := by
    cases s with
    | nil => rfl
    | cons a t =>
      rw [List.dropWhile_cons, if_neg]
      simp [h1 a rfl]
  rw [hd]
  have hr : s.reverse.dropWhile Char.isWhitespace = s.reverse := by
    cases hrev : s.reverse with
    | nil => rfl
    | cons a t =>
      rw [List.dropWhile_cons, if_neg]
      have hla : s.getLast? = some a := by
        rw [← List.head?_reverse, hrev, List.head?_cons]
      simp [h2 a hla]
  rw [hr, List.reverse_reverse]

theorem pyStrip_joinSep (F : List Str)
    (h : ∀ w ∈ F, w ≠ [] ∧ ∀ c ∈ w, c.isWhitespace = false) :
    pyStrip (joinSep [' '] F) = joinSep [' '] F := by
  cases hF : F with
  | nil => rfl
  | cons w ws =>
    subst hF
    apply pyStrip_eq_self
    · intro c hc
      rw [joinSep_head? (h w (List.mem_cons_self _ _)).1] at hc
      have hcw : c ∈ w := by
        cases w with
        | nil => simp at hc
        | cons a t =>
          rw [List.head?_cons] at hc
          cases hc
          exact List.mem_cons_self _ _
      exact (h w (List.mem_cons_self _ _)).2 c hcw
    · intro c hc
      obtain ⟨l2, x, hlx⟩ : ∃ l2 x, w :: ws = l2 ++ [x] :=
        ⟨(w :: ws).dropLast, (w :: ws).getLast (List.cons_ne_nil _ _),
          (List.dropLast_append_getLast _).symm⟩
      have hx : x ∈ w :: ws := by
        rw [hlx]
        exact List.mem_append_right _ (List.mem_singleton.mpr rfl)
      rw [hlx, joinSep_getLast? l2 x (h x hx).1
        (fun u hu => (h u (by rw [hlx]; exact List.mem_append_left _ hu)).1)] at hc
      exact (h x hx).2 c (List.mem_of_getLast?_eq_some hc)

theorem splitWs_preprocess (stopWords : List Str) (s : Str) :
    splitWs (preprocess_query stopWords s) =
      (splitWs (lowerS s)).filter (fun w => !stopWords.contains w) := by
  have hprops : ∀ w ∈ (splitWs (lowerS s)).filter (fun w => !stopWords.contains w),
      w ≠ [] ∧ ∀ c ∈ w, c.isWhitespace = false :=
    fun w hw => mem_splitWs_props _ w (List.mem_of_mem_filter hw)
  unfold preprocess_query
  rw [pyStrip_joinSep _ hprops, splitWs_joinSep _ hprops]

/-- Claim C1 (amended): `chatbot_query` hands the Location Matcher the same
lower-cased, stop-word-stripped normalized query that the Category Matcher receives
(see `chatbot_query`/`normalized_query`; `extract_location` then title-cases that
string internally).  Consequently no stop word survives as a whitespace token of the
string passed to `extract_location`. -/
theorem c1_location_matcher_input (stopWords : List Str) (query : Str) (w : Str)
    (hw : w ∈ stopWords) :
    w ∉ splitWs (normalized_query stopWords query) := by
  intro hmem
  rw [normalized_query, splitWs_preprocess] at hmem
  have := List.of_mem_filter hmem
  simp only [List.contains, List.elem_eq_mem, Bool.not_eq_true', decide_eq_false_iff_not]
    at this
  exact this hw

/-- Claim C1 counterexample: for the query "wifi in bukit bintang" and the spaCy stop
word "in", the string the entry point passes to `extract_location` is the normalized
"wifi bukit bintang" — the stop word is gone and the string differs from the
title-cased raw query.  A scorer recognizing exactly the title-cased raw query makes
the difference observable: the chatbot falls through to the help branch, while
`extract_location` applied to the raw query (as the claim asserts happens) would
return the Bukit Bintang location. -/
theorem c1_location_matcher_input_counterexample :
    normalized_query ["in".toList] "wifi in bukit bintang".toList =
      "wifi bukit bintang".toList ∧
    "in".toList ∈ splitWs "wifi in bukit bintang".toList ∧
    "in".toList ∉ splitWs (normalized_query ["in".toList] "wifi in bukit bintang".toList) ∧
    chatbot_query ["in".toList] zeroScorer rawTitleScorer ["Bukit Bintang".toList]
      emptyLookupBoth emptyLookupCat emptyLookupLoc "wifi in bukit bintang".toList =
      Except.ok HELP_MESSAGE ∧
    extract_location rawTitleScorer ["Bukit Bintang".toList]
      "wifi in bukit bintang".toList =
      Except.ok (some "Bukit Bintang".toList) := by
  refine ⟨by decide, by decide, by decide, by decide, by decide⟩

/-- Claim C1 witness: the amended statement evaluated at the stop word "in" from the
spec glossary. -/
theorem c1_location_matcher_input_witness :
    "in".toList ∉ splitWs
      (normalized_query SPEC_STOP_WORDS "which outlets are in bukit bintang".toList) :=
  c1_location_matcher_input SPEC_STOP_WORDS "which outlets are in bukit bintang".toList
    "in".toList (by decide)

/-! ### Title-casing lemmas -/

theorem length_pyTitleGo (p : Bool) : ∀ s : Str, (pyTitleGo p s).length = s.length := by
  intro s
  induction s generalizing p with
  | nil => rfl
  | cons c r ih => simp [pyTitleGo, ih]

theorem isAlpha_titleC (p : Bool) (c : Char) : (titleC p c).isAlpha = c.isAlpha := by
  unfold titleC
  split_ifs <;> simp [isAlpha_toLower, isAlpha_toUpper]

theorem isWs_titleC (p : Bool) (c : Char) : (titleC p c).isWhitespace = c.isWhitespace := by
  unfold titleC
  split_ifs <;> simp [isWs_toLower, isWs_toUpper]

theorem isDigit_titleC (p : Bool) (c : Char) : (titleC p c).isDigit = c.isDigit := by
  unfold titleC
  split_ifs <;> simp [isDigit_toLower, isDigit_toUpper]

theorem isWordC_titleC (p : Bool) (c : Char) : isWordC (titleC p c) = isWordC c := by
  unfold titleC
  split_ifs <;> simp [isWordC_toLower, isWordC_toUpper]

theorem toLower_titleC (p : Bool) (c : Char) : (titleC p c).toLower = c.toLower := by
  unfold titleC
  split_ifs <;> simp [toLower_toLower, toLower_toUpper]

theorem titleC_titleC (p : Bool) (c : Char) : titleC p (titleC p c) = titleC p c := by
  by_cases h : c.isAlpha = true
  · cases p <;>
      simp [titleC, h, isAlpha_toLower, isAlpha_toUpper, toLower_toLower, toUpper_toUpper]
  · simp [titleC, h]

theorem pyTitleGo_idem (p : Bool) : ∀ s : Str, pyTitleGo p (pyTitleGo p s) = pyTitleGo p s := by
  intro s
  induction s generalizing p with
  | nil => rfl
  | cons c r ih =>
    show titleC p (titleC p c) :: pyTitleGo (titleC p c).isAlpha (pyTitleGo c.isAlpha r) = _
    rw [titleC_titleC, isAlpha_titleC, ih]
    rfl

theorem lowerS_pyTitleGo (p : Bool) : ∀ s : Str, lowerS (pyTitleGo p s) = lowerS s := by
  intro s
  induction s generalizing p with
  | nil => rfl
  | cons c r ih =>
    show (titleC p c).toLower :: lowerS (pyTitleGo c.isAlpha r) = c.toLower :: lowerS r
    rw [toLower_titleC, ih]

theorem all_not_ws_pyTitleGo {s : Str} (h : ∀ c ∈ s, c.isWhitespace = false) (p : Bool) :
    ∀ c2 ∈ pyTitleGo p s, c2.isWhitespace = false := by
  induction s generalizing p with
  | nil => intro c2 hc2; exact absurd hc2 (List.not_mem_nil c2)
  | cons c r ih =>
    intro c2 hc2
    rcases List.mem_cons.mp hc2 with rfl | h2
    · rw [isWs_titleC]
      exact h c (List.mem_cons_self _ _)
    · exact ih (fun c3 hc3 => h c3 (List.mem_cons_of_mem _ hc3)) c.isAlpha c2 h2

theorem pyTitleGo_append_space (ys : Str) :
    ∀ (xs : Str) (p : Bool),
      pyTitleGo p (xs ++ ' ' :: ys) = pyTitleGo p xs ++ ' ' :: pyTitleGo false ys := by
  intro xs
  induction xs with
  | nil =>
    intro p
    show titleC p ' ' :: pyTitleGo ' '.isAlpha ys = ' ' :: pyTitleGo false ys
    rfl
  | cons c r ih =>
    intro p
    show titleC p c :: pyTitleGo c.isAlpha (r ++ ' ' :: ys) = _
    rw [ih c.isAlpha]
    rfl

theorem pyTitle_joinSep : ∀ F : List Str,
    pyTitleGo false (joinSep [' '] F) = joinSep [' '] (F.map (pyTitleGo false)) := by
  intro F
  induction F with
  | nil => rfl
  | cons w vs ih =>
    cases vs with
    | nil => rfl
    | cons v vs2 =>
      have hj : joinSep [' '] (w :: v :: vs2) = w ++ ' ' :: joinSep [' '] (v :: vs2) := by
        show (w ++ [' ']) ++ joinSep [' '] (v :: vs2) = _
        simp
      rw [hj, pyTitleGo_append_space, ih]
      show _ = joinSep [' '] (pyTitleGo false w :: (v :: vs2).map (pyTitleGo false))
      have hj2 : joinSep [' ']
          (pyTitleGo false w :: List.map (pyTitleGo false) (v :: vs2)) =
          pyTitleGo false w ++ ' ' ::
            joinSep [' '] (List.map (pyTitleGo false) (v :: vs2)) := by
        show (pyTitleGo false w ++ [' ']) ++ _ = _
        simp
      rw [hj2]

theorem lowerS_idem (s : Str) : lowerS (lowerS s) = lowerS s := by
  unfold lowerS
  rw [List.map_map]
  apply List.map_congr_left
  intro c _
  exact toLower_toLower c

theorem splitWs_map (f : Char → Char) (hf : ∀ c, (f c).isWhitespace = c.isWhitespace) :
    ∀ s : Str, splitWs (s.map f) = (splitWs s).map (List.map f) := by
  have hcomp : ((fun x => !x.isWhitespace) ∘ f) = fun x => !x.isWhitespace := by
    funext c
    simp [Function.comp, hf]
  intro s
  generalize hn : s.length = n
  induction n using Nat.strong_induction_on generalizing s with
  | _ n ih =>
    cases s with
    | nil => rfl
    | cons a t =>
      rw [List.map_cons]
      by_cases ha : a.isWhitespace = true
      · rw [splitWs_cons_ws (by rw [hf]; exact ha), splitWs_cons_ws ha]
        subst hn
        exact ih t.length (by simp) t rfl
      · rw [Bool.not_eq_true] at ha
        rw [splitWs_cons_not_ws (by rw [hf]; exact ha), splitWs_cons_not_ws ha]
        rw [List.takeWhile_map, List.dropWhile_map, hcomp]
        have hlen : (t.dropWhile fun x => !x.isWhitespace).length ≤ t.length :=
          length_dropWhile_le _ _
        subst hn
        rw [ih (t.dropWhile fun x => !x.isWhitespace).length (by simp; omega) _ rfl]
        simp

theorem splitWs_lowerS (s : Str) : splitWs (lowerS s) = (splitWs s).map lowerS :=
  splitWs_map Char.toLower isWs_toLower s

theorem mem_cleanAddress {a x : Str} :
    x ∈ cleanAddress a ↔
      ∃ part ∈ (splitComma (removePostal a)).map pyStrip,
        pyStrip (joinSep [' '] (partWords part)) ≠ [] ∧
        x = pyTitle (pyStrip (joinSep [' '] (partWords part))) := by
  unfold cleanAddress
  rw [List.mem_filterMap]
  constructor
  · rintro ⟨part, hp, hfx⟩
    by_cases he : (pyStrip (joinSep [' '] (partWords part))).isEmpty
    · rw [if_pos he] at hfx
      exact absurd hfx (by simp)
    · rw [if_neg he] at hfx
      refine ⟨part, hp, by simpa using he, ?_⟩
      cases hfx
      rfl
  · rintro ⟨part, hp, hne, rfl⟩
    refine ⟨part, hp, ?_⟩
    rw [if_neg (by simpa using hne)]

/-- Claim C6: every element of the Location Vocabulary is non-empty and title-cased,
the vocabulary has no duplicates under exact string equality, and no whitespace token
of any element equals a Street Prefix List entry case-insensitively. -/
theorem c6_vocabulary_invariants :
    (∀ addresses : List Str, (get_cleaned_locations addresses).Nodup) ∧
    (∀ (addresses : List Str) (x : Str), x ∈ get_cleaned_locations addresses →
      x ≠ [] ∧ pyTitle x = x ∧
      ∀ t ∈ splitWs x, ∀ p ∈ STREET_PREFIXES, lowerS t ≠ lowerS p) := by
  constructor
  · intro addresses
    exact nodup_setList _
  · intro addresses x hx
    rw [get_cleaned_locations, mem_setList, List.mem_flatMap] at hx
    obtain ⟨a, _, hxa⟩ := hx
    rw [mem_cleanAddress] at hxa
    obtain ⟨part, _, hne, rfl⟩ := hxa
    have hprops : ∀ w ∈ partWords part, w ≠ [] ∧ ∀ c ∈ w, c.isWhitespace = false :=
      fun w hw => mem_splitWs_props _ w (List.mem_of_mem_filter hw)
    have hstrip := pyStrip_joinSep (partWords part) hprops
    rw [hstrip] at hne ⊢
    refine ⟨?_, pyTitleGo_idem false _, ?_⟩
    · intro h0
      apply hne
      apply List.length_eq_zero.mp
      rw [← length_pyTitleGo false (joinSep [' '] (partWords part))]
      rw [show pyTitleGo false (joinSep [' '] (partWords part)) =
        pyTitle (joinSep [' '] (partWords part)) from rfl, h0]
      rfl
    · intro t ht p hp
      rw [pyTitle, pyTitle_joinSep] at ht
      have hmapprops : ∀ w ∈ (partWords part).map (pyTitleGo false),
          w ≠ [] ∧ ∀ c ∈ w, c.isWhitespace = false := by
        intro w hw
        rw [List.mem_map] at hw
        obtain ⟨w0, hw0, rfl⟩ := hw
        obtain ⟨hne0, hnws0⟩ := hprops w0 hw0
        refine ⟨?_, all_not_ws_pyTitleGo hnws0 false⟩
        intro h0
        apply hne0
        apply List.length_eq_zero.mp
        rw [← length_pyTitleGo false w0, h0]
        rfl
      rw [splitWs_joinSep _ hmapprops, List.mem_map] at ht
      obtain ⟨w0, hw0, rfl⟩ := ht
      have hl : lowerS (pyTitleGo false w0) = w0 := by
        rw [lowerS_pyTitleGo]
        have hw0s : w0 ∈ splitWs (lowerS part) := List.mem_of_mem_filter hw0
        rw [splitWs_lowerS, List.mem_map] at hw0s
        obtain ⟨v, _, rfl⟩ := hw0s
        exact lowerS_idem v
      rw [hl]
      have hlp : lowerS p = p := by
        have hall : ∀ q ∈ STREET_PREFIXES, lowerS q = q := by decide
        exact hall p hp
      rw [hlp]
      intro heq
      subst heq
      have hf := List.of_mem_filter hw0
      simp only [List.contains, List.elem_eq_mem, Bool.not_eq_true',
        decide_eq_false_iff_not] at hf
      exact hf hp

/-- Claim C6 witness: the invariants evaluated on a concrete vocabulary element. -/
theorem c6_vocabulary_invariants_witness :
    "Bukit Bintang".toList ≠ ([] : Str) ∧
    pyTitle "Bukit Bintang".toList = "Bukit Bintang".toList :=
  have h := c6_vocabulary_invariants.2
    ["12, Jalan Bukit Bintang, 55100 Kuala Lumpur".toList] "Bukit Bintang".toList
    (by decide)
  ⟨h.1, h.2.1⟩

/-! ### Five-digit-token lemmas -/

theorem getD_append_left {l1 l2 : Str} {n : Nat} (h : n < l1.length) (d : Char) :
    (l1 ++ l2).getD n d = l1.getD n d := by
  rw [List.getD_eq_getElem?_getD, List.getD_eq_getElem?_getD, List.getElem?_append_left h]

theorem getD_append_right {l1 l2 : Str} {n : Nat} (h : l1.length ≤ n) (d : Char) :
    (l1 ++ l2).getD n d = l2.getD (n - l1.length) d := by
  rw [List.getD_eq_getElem?_getD, List.getD_eq_getElem?_getD, List.getElem?_append_right h]

theorem getD_mem {l : Str} {n : Nat} (h : n < l.length) (d : Char) : l.getD n d ∈ l := by
  rw [List.getD_eq_getElem?_getD, List.getElem?_eq_getElem h]
  exact List.getElem_mem h

theorem getD_map_lt {f : Char → Char} {l : Str} {n : Nat} (h : n < l.length) (d d2 : Char) :
    (l.map f).getD n d = f (l.getD n d2) := by
  rw [List.getD_eq_getElem?_getD, List.getD_eq_getElem?_getD, List.getElem?_map,
    List.getElem?_eq_getElem h]
  rfl

theorem isWordC_of_isDigit {c : Char} (h : c.isDigit = true) : isWordC c = true := by
  rw [isWordC_iff]
  rw [isDigit_iff] at h
  omega

theorem not_isWordC_of_isWs {c : Char} (h : c.isWhitespace = true) : isWordC c = false := by
  rw [Bool.eq_false_iff]
  intro hw
  rw [isWordC_iff] at hw
  rw [isWs_iff] at h
  omega

theorem noTok_nil {lb : Bool} : NoTok lb [] := by
  intro i hi
  exact absurd hi (by simp)

/-- A token of an infix placed between word-boundary flanks is a token of the whole
string. -/
theorem noTok_infix {a m b : Str} (hA : LeftFlank a) (hB : RightFlank b)
    (h : NoTok true (a ++ (m ++ b))) : NoTok true m := by
  intro i hi hTok
  obtain ⟨hlen, hdig, _, hprev, hright⟩ := hTok
  have hslen : (a ++ (m ++ b)).length = a.length + m.length + b.length := by
    simp [List.length_append]
    omega
  apply h (a.length + i) (by omega)
  refine ⟨by omega, ?_, fun _ => rfl, ?_, ?_⟩
  · intro j hj
    rw [getD_append_right (by omega) ' ']
    have he : a.length + i + j - a.length = i + j := by omega
    rw [he, getD_append_left (by omega)]
    exact hdig j hj
  · intro hne
    by_cases hi0 : i = 0
    · subst hi0
      rcases hA with rfl | hAh
      · exact absurd (by simp) hne
      · have ha : a.length ≠ 0 := by
          intro h0
          exact hne (by omega)
        rw [getD_append_left (by omega)]
        have he : a.length + 0 - 1 = a.length - 1 := by omega
        rw [he]
        exact hAh
    · rw [getD_append_right (by omega) ' ']
      have he : a.length + i - 1 - a.length = i - 1 := by omega
      rw [he, getD_append_left (by omega)]
      exact hprev hi0
  · by_cases hcase : i + 5 = m.length
    · rcases hB with rfl | hBh
      · left
        rw [hslen]
        simp
        omega
      · right
        rw [getD_append_right (by omega) ' ']
        have h1 : a.length + i + 5 - a.length = m.length := by omega
        rw [h1, getD_append_right (by omega) ' ']
        have h2 : m.length - m.length = 0 := by omega
        rw [h2]
        exact hBh
    · have hr : isWordC (m.getD (i + 5) ' ') = false := by
        rcases hright with heq | hr2
        · exact absurd heq hcase
        · exact hr2
      right
      rw [getD_append_right (by omega) ' ']
      have h1 : a.length + i + 5 - a.length = i + 5 := by omega
      rw [h1, getD_append_left (by omega)]
      exact hr

/-- A character-class-preserving character map preserves token-freedom. -/
theorem noTok_map {f : Char → Char} (hd : ∀ c, (f c).isDigit = c.isDigit)
    (hw : ∀ c, isWordC (f c) = isWordC c) {s : Str} (h : NoTok true s) :
    NoTok true (s.map f) := by
  intro i hi hTok
  rw [List.length_map] at hi
  obtain ⟨hlen, hdig, _, hprev, hright⟩ := hTok
  rw [List.length_map] at hlen
  apply h i hi
  refine ⟨hlen, ?_, fun _ => rfl, ?_, ?_⟩
  · intro j hj
    have := hdig j hj
    rw [getD_map_lt (by omega) ' ' ' ', hd] at this
    exact this
  · intro hne
    have := hprev hne
    rw [getD_map_lt (by omega) ' ' ' ', hw] at this
    exact this
  · rcases hright with heq | hr
    · left
      rw [List.length_map] at heq
      exact heq
    · by_cases he : i + 5 = s.length
      · exact Or.inl he
      · right
        rw [getD_map_lt (by omega) ' ' ' ', hw] at hr
        exact hr

theorem pyTitleGo_getD (d : Char) :
    ∀ (s : Str) (p : Bool) (n : Nat), n < s.length →
      ∃ q, (pyTitleGo p s).getD n d = titleC q (s.getD n d) := by
  intro s
  induction s with
  | nil =>
    intro p n hn
    exact absurd hn (by simp)
  | cons c r ih =>
    intro p n hn
    cases n with
    | zero => exact ⟨p, rfl⟩
    | succ n2 =>
      show ∃ q, (pyTitleGo c.isAlpha r).getD n2 d = _
      exact ih c.isAlpha n2 (by simp at hn; omega)

/-- Title-casing preserves token-freedom. -/
theorem noTok_pyTitleGo (p : Bool) {s : Str} (h : NoTok true s) :
    NoTok true (pyTitleGo p s) := by
  intro i hi hTok
  rw [length_pyTitleGo] at hi
  obtain ⟨hlen, hdig, _, hprev, hright⟩ := hTok
  rw [length_pyTitleGo] at hlen
  apply h i hi
  refine ⟨hlen, ?_, fun _ => rfl, ?_, ?_⟩
  · intro j hj
    have hd := hdig j hj
    obtain ⟨q, hq⟩ := pyTitleGo_getD ' ' s p (i + j) (by omega)
    rw [hq, isDigit_titleC] at hd
    exact hd
  · intro hne
    have hp := hprev hne
    obtain ⟨q, hq⟩ := pyTitleGo_getD ' ' s p (i - 1) (by omega)
    rw [hq, isWordC_titleC] at hp
    exact hp
  · rcases hright with heq | hr
    · left
      rw [length_pyTitleGo] at heq
      exact heq
    · by_cases he : i + 5 = s.length
      · exact Or.inl he
      · right
        obtain ⟨q, hq⟩ := pyTitleGo_getD ' ' s p (i + 5) (by omega)
        rw [hq, isWordC_titleC] at hr
        exact hr

theorem leftFlank_of_all_ws {a : Str} (h : ∀ c ∈ a, c.isWhitespace = true) : LeftFlank a := by
  cases a with
  | nil => exact Or.inl rfl
  | cons x t =>
    right
    apply not_isWordC_of_isWs
    exact h _ (getD_mem (by simp) ' ')

theorem rightFlank_of_all_ws {b : Str} (h : ∀ c ∈ b, c.isWhitespace = true) : RightFlank b := by
  cases b with
  | nil => exact Or.inl rfl
  | cons x t =>
    right
    apply not_isWordC_of_isWs
    exact h _ (getD_mem (by simp) ' ')

theorem splitComma_decomp :
    ∀ (s : Str) (part : Str), part ∈ splitComma s →
      ∃ a b, s = a ++ (part ++ b) ∧ LeftFlank a ∧ RightFlank b := by
  intro s
  generalize hn : s.length = n
  induction n using Nat.strong_induction_on generalizing s with
  | _ n ih =>
    intro part hp
    rw [splitComma_eq] at hp
    cases hd : s.dropWhile (fun c => !(c == ',')) with
    | nil =>
      rw [hd] at hp
      rw [List.mem_singleton] at hp
      subst hp
      refine ⟨[], [], ?_, Or.inl rfl, Or.inl rfl⟩
      conv_lhs => rw [← List.takeWhile_append_dropWhile (p := fun c => !(c == ',')) (l := s)]
      rw [hd]
      simp
    | cons c rest =>
      rw [hd] at hp
      have hc : c = ',' := by
        have h0 := List.head?_dropWhile_not (fun c => !(c == ',')) s
        rw [hd] at h0
        simpa using h0
      subst hc
      have hs : s = s.takeWhile (fun c => !(c == ',')) ++ (',' :: rest) := by
        conv_lhs => rw [← List.takeWhile_append_dropWhile (p := fun c => !(c == ',')) (l := s)]
        rw [hd]
      rcases List.mem_cons.mp hp with rfl | hp2
      · exact ⟨[], ',' :: rest, by simpa using hs, Or.inl rfl,
          Or.inr (show isWordC ',' = false from by decide)⟩
      · have hrest : rest.length < n := by
          have := length_lt_of_dropWhile_cons hd
          omega
        obtain ⟨a2, b2, hab, hA2, hB2⟩ := ih rest.length (by omega) rest rfl part hp2
        refine ⟨s.takeWhile (fun c => !(c == ',')) ++ ',' :: a2, b2, ?_, ?_, hB2⟩
        · calc s = s.takeWhile (fun c => !(c == ',')) ++ (',' :: rest) := hs
            _ = s.takeWhile (fun c => !(c == ',')) ++ (',' :: (a2 ++ (part ++ b2))) := by
                rw [← hab]
            _ = (s.takeWhile (fun c => !(c == ',')) ++ ',' :: a2) ++ (part ++ b2) := by
                simp
        · right
          rw [getD_append_right (by simp only [List.length_append, List.length_cons]; omega) ' ']
          have hidx : (s.takeWhile (fun c => !(c == ',')) ++ ',' :: a2).length - 1 -
              (s.takeWhile (fun c => !(c == ','))).length = a2.length := by
            simp only [List.length_append, List.length_cons]
            omega
          rw [hidx]
          by_cases h0 : a2 = []
          · subst h0
            exact show isWordC ',' = false from by decide
          · have ha2 : a2.length ≠ 0 := fun hl => h0 (List.length_eq_zero.mp hl)
            have hidx2 : a2.length = (a2.length - 1) + 1 := by omega
            rw [hidx2, List.getD_cons_succ]
            rcases hA2 with rfl | hA2h
            · exact absurd rfl h0
            · exact hA2h

theorem pyStrip_decomp (s : Str) :
    ∃ pre suf, s = pre ++ (pyStrip s ++ suf) ∧
      (∀ c ∈ pre, c.isWhitespace = true) ∧ (∀ c ∈ suf, c.isWhitespace = true) := by
  refine ⟨s.takeWhile Char.isWhitespace,
    ((s.dropWhile Char.isWhitespace).reverse.takeWhile Char.isWhitespace).reverse, ?_, ?_, ?_⟩
  · conv_lhs => rw [← List.takeWhile_append_dropWhile (p := Char.isWhitespace) (l := s)]
    congr 1
    unfold pyStrip
    conv_lhs => rw [← List.reverse_reverse (s.dropWhile Char.isWhitespace)]
    conv_lhs =>
      rw [← List.takeWhile_append_dropWhile (p := Char.isWhitespace)
        (l := (s.dropWhile Char.isWhitespace).reverse)]
    rw [List.reverse_append]
  · intro c hc
    exact List.mem_takeWhile_imp hc
  · intro c hc
    rw [List.mem_reverse] at hc
    exact List.mem_takeWhile_imp hc

theorem splitWs_decomp :
    ∀ (s : Str) (w : Str), w ∈ splitWs s →
      ∃ a b, s = a ++ (w ++ b) ∧ LeftFlank a ∧ RightFlank b := by
  intro s
  generalize hn : s.length = n
  induction n using Nat.strong_induction_on generalizing s with
  | _ n ih =>
    intro w hw
    rw [splitWs_eq] at hw
    cases hd : s.dropWhile Char.isWhitespace with
    | nil =>
      rw [hd] at hw
      exact absurd hw (List.not_mem_nil w)
    | cons c r =>
      rw [hd] at hw
      have hs : s = s.takeWhile Char.isWhitespace ++ (c :: r) := by
        conv_lhs => rw [← List.takeWhile_append_dropWhile (p := Char.isWhitespace) (l := s)]
        rw [hd]
      have hTws : ∀ x ∈ s.takeWhile Char.isWhitespace, x.isWhitespace = true :=
        fun x hx => List.mem_takeWhile_imp hx
      have hcr : c :: r =
          (c :: r.takeWhile (fun x => !x.isWhitespace)) ++
            r.dropWhile (fun x => !x.isWhitespace) := by
        rw [List.cons_append]
        congr 1
        exact (List.takeWhile_append_dropWhile _ _).symm
      rcases List.mem_cons.mp hw with rfl | hw2
      · refine ⟨s.takeWhile Char.isWhitespace, r.dropWhile (fun x => !x.isWhitespace), ?_,
          leftFlank_of_all_ws hTws, ?_⟩
        · calc s = s.takeWhile Char.isWhitespace ++ (c :: r) := hs
            _ = _ := by rw [hcr]
        · cases hd2 : r.dropWhile (fun x => !x.isWhitespace) with
          | nil => exact Or.inl rfl
          | cons d r2 =>
            right
            have h0 := List.head?_dropWhile_not (fun x => !x.isWhitespace) r
            rw [hd2] at h0
            have h1 : d.isWhitespace = true := by simpa using h0
            exact not_isWordC_of_isWs h1
      · have hR : (r.dropWhile (fun x => !x.isWhitespace)).length < n := by
          have h1 : r.length < s.length := length_lt_of_dropWhile_cons hd
          have h2 : (r.dropWhile (fun x => !x.isWhitespace)).length ≤ r.length :=
            length_dropWhile_le _ _
          omega
        obtain ⟨a2, b2, hab, hA2, hB2⟩ :=
          ih (r.dropWhile (fun x => !x.isWhitespace)).length hR _ rfl w hw2
        refine ⟨s.takeWhile Char.isWhitespace ++
          ((c :: r.takeWhile (fun x => !x.isWhitespace)) ++ a2), b2, ?_, ?_, hB2⟩
        · calc s = s.takeWhile Char.isWhitespace ++ (c :: r) := hs
            _ = s.takeWhile Char.isWhitespace ++
                ((c :: r.takeWhile (fun x => !x.isWhitespace)) ++
                  (a2 ++ (w ++ b2))) := by rw [hcr, hab]
            _ = _ := by simp
        · by_cases h0 : a2 = []
          · exfalso
            subst h0
            rw [List.nil_append] at hab
            obtain ⟨hwne, hwnws⟩ := mem_splitWs_props _ w hw2
            cases hd2 : r.dropWhile (fun x => !x.isWhitespace) with
            | nil =>
              rw [hd2] at hab
              cases w with
              | nil => exact hwne rfl
              | cons e w2 => simp at hab
            | cons d r2 =>
              have h0w := List.head?_dropWhile_not (fun x => !x.isWhitespace) r
              rw [hd2] at h0w
              have h1 : d.isWhitespace = true := by simpa using h0w
              rw [hd2] at hab
              cases w with
              | nil => exact hwne rfl
              | cons e w2 =>
                rw [List.cons_append] at hab
                have hde : d = e := ((List.cons.injEq _ _ _ _).mp hab).1
                subst hde
                have h2 := hwnws d (List.mem_cons_self _ _)
                rw [h1] at h2
                exact absurd h2 (by simp)
          · right
            have ha2 : a2.length ≠ 0 := fun hl => h0 (List.length_eq_zero.mp hl)
            rw [getD_append_right
              (by simp only [List.length_append, List.length_cons]; omega) ' ']
            rw [getD_append_right
              (by simp only [List.length_append, List.length_cons]; omega) ' ']
            have hidx : (s.takeWhile Char.isWhitespace ++
                ((c :: r.takeWhile (fun x => !x.isWhitespace)) ++ a2)).length - 1 -
                (s.takeWhile Char.isWhitespace).length -
                (c :: r.takeWhile (fun x => !x.isWhitespace)).length = a2.length - 1 := by
              simp only [List.length_append, List.length_cons]
              omega
            rw [hidx]
            rcases hA2 with rfl | hA2h
            · exact absurd rfl h0
            · exact hA2h

theorem noTok_joinSep :
    ∀ F : List Str, (∀ w ∈ F, NoTok true w) → NoTok true (joinSep [' '] F) := by
  intro F
  induction F with
  | nil => intro _; exact noTok_nil
  | cons w vs ih =>
    intro h
    cases vs with
    | nil => exact h w (List.mem_cons_self _ _)
    | cons v vs2 =>
      have hj : joinSep [' '] (w :: v :: vs2) = w ++ (' ' :: joinSep [' '] (v :: vs2)) := by
        show (w ++ [' ']) ++ joinSep [' '] (v :: vs2) = _
        simp
      rw [hj]
      have hw := h w (List.mem_cons_self _ _)
      have hJ := ih (fun x hx => h x (List.mem_cons_of_mem _ hx))
      intro i hi hTok
      obtain ⟨hlen, hdig, -, hprev, hright⟩ := hTok
      have hslen : (w ++ (' ' :: joinSep [' '] (v :: vs2))).length =
          w.length + 1 + (joinSep [' '] (v :: vs2)).length := by
        simp only [List.length_append, List.length_cons]
        omega
      rw [hslen] at hlen hi
      have hsep : ¬ (i ≤ w.length ∧ w.length < i + 5) := by
        rintro ⟨h1, h2⟩
        have hd5 := hdig (w.length - i) (by omega)
        rw [show i + (w.length - i) = w.length from by omega,
          getD_append_right (by omega) ' ',
          show w.length - w.length = 0 from by omega, List.getD_cons_zero] at hd5
        exact absurd hd5 (by decide)
      by_cases hcase : i + 5 ≤ w.length
      · apply hw i (by omega)
        refine ⟨by omega, ?_, fun _ => rfl, ?_, ?_⟩
        · intro j hj
          have hdd := hdig j hj
          rw [getD_append_left (by omega)] at hdd
          exact hdd
        · intro hne
          have hp := hprev hne
          rw [getD_append_left (by omega)] at hp
          exact hp
        · by_cases he : i + 5 = w.length
          · exact Or.inl he
          · right
            have hr : isWordC ((w ++ (' ' :: joinSep [' '] (v :: vs2))).getD (i + 5) ' ') =
                false := by
              rcases hright with heq | hr2
              · rw [hslen] at heq
                exact absurd heq (by omega)
              · exact hr2
            rw [getD_append_left (by omega)] at hr
            exact hr
      · have hiL : w.length + 1 ≤ i := by
          by_cases hle : i ≤ w.length
          · exact absurd ⟨hle, by omega⟩ hsep
          · omega
        apply hJ (i - w.length - 1) (by omega)
        refine ⟨by omega, ?_, fun _ => rfl, ?_, ?_⟩
        · intro j hj
          have hdd := hdig j hj
          rw [getD_append_right (by omega) ' ',
            show i + j - w.length = (i - w.length - 1 + j) + 1 from by omega,
            List.getD_cons_succ] at hdd
          exact hdd
        · intro hne
          have hp := hprev (by omega)
          rw [getD_append_right (by omega) ' ',
            show i - 1 - w.length = (i - w.length - 1 - 1) + 1 from by omega,
            List.getD_cons_succ] at hp
          exact hp
        · rcases hright with heq | hr2
          · left
            rw [hslen] at heq
            omega
          · by_cases he : i - w.length - 1 + 5 = (joinSep [' '] (v :: vs2)).length
            · exact Or.inl he
            · right
              rw [getD_append_right (by omega) ' ',
                show i + 5 - w.length = (i - w.length - 1 + 5) + 1 from by omega,
                List.getD_cons_succ] at hr2
              exact hr2

theorem noTok_short {lb : Bool} {l : Str} (h : l.length ≤ 4) : NoTok lb l := by
  intro i hi hTok
  obtain ⟨hlen, -, -, -, -⟩ := hTok
  omega

theorem removePostalGo_cons5 (prev : Option Char) (c1 c2 c3 c4 c5 : Char) (rest : Str) :
    removePostalGo prev (c1 :: c2 :: c3 :: c4 :: c5 :: rest) =
      if bndB prev && c1.isDigit && c2.isDigit && c3.isDigit && c4.isDigit && c5.isDigit
          && afterBnd rest then
        removePostalGo (some c5) rest
      else
        c1 :: removePostalGo (some c1) (c2 :: c3 :: c4 :: c5 :: rest) := rfl

theorem removePostalGo_short (prev : Option Char) :
    ∀ l : Str, l.length ≤ 4 → removePostalGo prev l = l := by
  intro l hl
  rcases l with _ | ⟨c1, _ | ⟨c2, _ | ⟨c3, _ | ⟨c4, _ | ⟨c5, rest⟩⟩⟩⟩⟩
  · rfl
  · rfl
  · rfl
  · rfl
  · rfl
  · simp only [List.length_cons] at hl
    omega

theorem removePostalGo_word_cons {c : Char} (hc : isWordC c = true) (d : Char) (r : Str) :
    removePostalGo (some c) (d :: r) = d :: removePostalGo (some d) r := by
  rcases r with _ | ⟨e2, _ | ⟨e3, _ | ⟨e4, _ | ⟨e5, rest⟩⟩⟩⟩
  · rfl
  · rfl
  · rfl
  · rfl
  · rw [removePostalGo_cons5]
    have hb : bndB (some c) = false := by simp [bndB, hc]
    rw [hb]
    simp

theorem noTok_cons {lb : Bool} {c : Char} {t : Str}
    (h1 : ¬ TokAt lb (c :: t) 0) (h2 : NoTok (!isWordC c) t) : NoTok lb (c :: t) := by
  intro i hi hTok
  cases i with
  | zero => exact h1 hTok
  | succ i2 =>
    obtain ⟨hlen, hdig, -, hprev, hright⟩ := hTok
    simp only [List.length_cons] at hlen hi
    apply h2 i2 (by omega)
    refine ⟨by omega, ?_, ?_, ?_, ?_⟩
    · intro j hj
      have hdd := hdig j hj
      rw [show i2 + 1 + j = (i2 + j) + 1 from by omega, List.getD_cons_succ] at hdd
      exact hdd
    · intro h0
      subst h0
      have hp := hprev (by omega)
      rw [show (0:Nat) + 1 - 1 = 0 from rfl, List.getD_cons_zero] at hp
      simp [hp]
    · intro hne
      have hp := hprev (by omega)
      rw [show i2 + 1 - 1 = (i2 - 1) + 1 from by omega, List.getD_cons_succ] at hp
      exact hp
    · rcases hright with heq | hr
      · left
        simp only [List.length_cons] at heq
        omega
      · right
        rw [show i2 + 1 + 5 = (i2 + 5) + 1 from by omega, List.getD_cons_succ] at hr
        exact hr

theorem noTok_removePostalGo :
    ∀ (n : Nat) (l : Str) (prev : Option Char) (lb : Bool), l.length ≤ n →
      (lb = bndB prev ∨ (bndB prev = false ∧ lb = true ∧ afterBnd l = true)) →
      NoTok lb (removePostalGo prev l) := by
  intro n
  induction n with
  | zero =>
    intro l prev lb hl _
    have h0 : l = [] := List.length_eq_zero.mp (Nat.le_zero.mp hl)
    subst h0
    rw [removePostalGo_short prev [] (by simp)]
    exact noTok_nil
  | succ k ih =>
    intro l prev lb hl hinv
    rcases l with _ | ⟨c1, _ | ⟨c2, _ | ⟨c3, _ | ⟨c4, _ | ⟨c5, rest⟩⟩⟩⟩⟩
    · rw [removePostalGo_short prev [] (by simp)]
      exact noTok_nil
    · rw [removePostalGo_short prev [c1] (by simp)]
      exact noTok_short (by simp)
    · rw [removePostalGo_short prev [c1, c2] (by simp)]
      exact noTok_short (by simp)
    · rw [removePostalGo_short prev [c1, c2, c3] (by simp)]
      exact noTok_short (by simp)
    · rw [removePostalGo_short prev [c1, c2, c3, c4] (by simp)]
      exact noTok_short (by simp)
    · simp only [List.length_cons] at hl
      by_cases hm : (bndB prev && c1.isDigit && c2.isDigit && c3.isDigit && c4.isDigit &&
          c5.isDigit && afterBnd rest) = true
      · rw [removePostalGo_cons5, if_pos hm]
        simp only [Bool.and_eq_true] at hm
        obtain ⟨⟨⟨⟨⟨⟨hb, h1⟩, h2⟩, h3⟩, h4⟩, h5⟩, ha⟩ := hm
        apply ih rest (some c5) lb (by omega)
        right
        refine ⟨by simp [bndB, isWordC_of_isDigit h5], ?_, ha⟩
        rcases hinv with hlb | ⟨-, hlb, -⟩
        · rw [hlb, hb]
        · exact hlb
      · rw [removePostalGo_cons5, if_neg hm]
        apply noTok_cons
        · intro hTok0
          obtain ⟨hlen0, hdig0, hl0, -, hr0⟩ := hTok0
          have hlb : lb = true := hl0 rfl
          have hd1 : c1.isDigit = true := by
            have h := hdig0 0 (by omega)
            simpa using h
          have hE1 := removePostalGo_word_cons (isWordC_of_isDigit hd1) c2
            (c3 :: c4 :: c5 :: rest)
          have hd2 : c2.isDigit = true := by
            have h := hdig0 1 (by omega)
            rw [show (0:Nat) + 1 = 1 from rfl, hE1] at h
            simpa using h
          have hE2 := removePostalGo_word_cons (isWordC_of_isDigit hd2) c3 (c4 :: c5 :: rest)
          have hd3 : c3.isDigit = true := by
            have h := hdig0 2 (by omega)
            rw [show (0:Nat) + 2 = 2 from rfl, hE1, hE2] at h
            simpa using h
          have hE3 := removePostalGo_word_cons (isWordC_of_isDigit hd3) c4 (c5 :: rest)
          have hd4 : c4.isDigit = true := by
            have h := hdig0 3 (by omega)
            rw [show (0:Nat) + 3 = 3 from rfl, hE1, hE2, hE3] at h
            simpa using h
          have hE4 := removePostalGo_word_cons (isWordC_of_isDigit hd4) c5 rest
          have hd5 : c5.isDigit = true := by
            have h := hdig0 4 (by omega)
            rw [show (0:Nat) + 4 = 4 from rfl, hE1, hE2, hE3, hE4] at h
            simpa using h
          have hafter : afterBnd rest = true := by
            cases rest with
            | nil => rfl
            | cons d r2 =>
              have hE5 := removePostalGo_word_cons (isWordC_of_isDigit hd5) d r2
              rcases hr0 with heq | hr
              · rw [hE1, hE2, hE3, hE4, hE5] at heq
                simp only [List.length_cons] at heq
                omega
              · rw [show (0:Nat) + 5 = 5 from rfl, hE1, hE2, hE3, hE4, hE5] at hr
                simp only [List.getD_cons_succ, List.getD_cons_zero] at hr
                show (!isWordC d) = true
                rw [hr]
                rfl
          have hbp : bndB prev = false := by
            cases hbp2 : bndB prev with
            | false => rfl
            | true =>
              exact absurd (by rw [hbp2, hd1, hd2, hd3, hd4, hd5, hafter]; rfl) hm
          rcases hinv with hlb2 | ⟨-, -, hafter2⟩
          · rw [hlb, hbp] at hlb2
            exact absurd hlb2 (by simp)
          · have : (!isWordC c1) = true := hafter2
            rw [isWordC_of_isDigit hd1] at this
            exact absurd this (by simp)
        · exact ih (c2 :: c3 :: c4 :: c5 :: rest) (some c1) (!isWordC c1)
            (by simp only [List.length_cons]; omega) (Or.inl rfl)

/-- The output of the postal-code removal step contains no standalone five-digit
token: every such token of the input is removed, and removal never creates one. -/
theorem noTok_removePostal (s : Str) : NoTok true (removePostal s) :=
  noTok_removePostalGo s.length s none true (Nat.le_refl _) (Or.inl rfl)

/-- Claim C5 (amended): for every input address set, no element of the Location
Vocabulary Builder output contains a standalone five-digit token (a `\b\d{5}\b`
match, which is what `re.sub` removes).  Five digits inside a longer digit run are
NOT removed — see the counterexample. -/
theorem c5_no_postal_token (addresses : List Str) (x : Str)
    (hx : x ∈ get_cleaned_locations addresses) : NoTok true x := by
  rw [get_cleaned_locations, mem_setList, List.mem_flatMap] at hx
  obtain ⟨a, -, hxa⟩ := hx
  rw [mem_cleanAddress] at hxa
  obtain ⟨part, hpart, -, rfl⟩ := hxa
  rw [List.mem_map] at hpart
  obtain ⟨part0, hpart0, rfl⟩ := hpart
  obtain ⟨a1, b1, hab1, hA1, hB1⟩ := splitComma_decomp (removePostal a) part0 hpart0
  have hnp0 : NoTok true part0 := noTok_infix hA1 hB1 (hab1 ▸ noTok_removePostal a)
  obtain ⟨pre, suf, hps, hpre, hsuf⟩ := pyStrip_decomp part0
  have hstripTok : NoTok true (pyStrip part0) :=
    noTok_infix (leftFlank_of_all_ws hpre) (rightFlank_of_all_ws hsuf) (hps ▸ hnp0)
  have hlowTok : NoTok true (lowerS (pyStrip part0)) :=
    noTok_map isDigit_toLower isWordC_toLower hstripTok
  have hwordTok : ∀ w ∈ partWords (pyStrip part0), NoTok true w := by
    intro w hw
    have hw2 : w ∈ splitWs (lowerS (pyStrip part0)) := List.mem_of_mem_filter hw
    obtain ⟨a2, b2, hab2, hA2, hB2⟩ := splitWs_decomp _ w hw2
    exact noTok_infix hA2 hB2 (hab2 ▸ hlowTok)
  have hjoinTok : NoTok true (joinSep [' '] (partWords (pyStrip part0))) :=
    noTok_joinSep _ hwordTok
  have hprops : ∀ w ∈ partWords (pyStrip part0), w ≠ [] ∧ ∀ c ∈ w, c.isWhitespace = false :=
    fun w hw => mem_splitWs_props _ w (List.mem_of_mem_filter hw)
  rw [pyStrip_joinSep _ hprops]
  exact noTok_pyTitleGo false hjoinTok

/-- Claim C5 counterexample: the address "123456" contains the five-digit substring
"12345" inside a longer digit run; `\b\d{5}\b` does not match it, the address
survives cleaning verbatim, and the output element still contains a five-digit
substring. -/
theorem c5_no_postal_token_counterexample :
    has5DigitRun "123456".toList = true ∧
    get_cleaned_locations ["123456".toList] = ["123456".toList] :=
  ⟨by decide, by decide⟩

/-- Claim C5 witness: the amended statement evaluated on an address with a postal
code. -/
theorem c5_no_postal_token_witness : NoTok true "Bukit Bintang".toList :=
  c5_no_postal_token ["Jalan Bukit Bintang, 55100".toList] "Bukit Bintang".toList
    (by decide)

end McMap
